import Mathlib

/-!
Verification of the oslo 1D tensor-parallelism core.

This file gives a shallow embedding, in Lean 4, of the tensor-parallel
engine pair in
`oslo/pytorch/model_parallelism/tensor_parallelism/tensor_parallel_engine_1d.py`
and of the sharded layer variants in
`oslo/pytorch/model_parallelism/utils/distributed.py`, and proves (or
refutes) the specified properties of those functions.

Modelling conventions:
* A 1-D tensor is a `List Int`; a 2-D tensor is a `List (List Int)`
  (a list of rows, so dim 0 indexes rows and dim 1 indexes columns).
* Python integers are `Int` (Python `//` is floor division, `Int.fdiv`);
  tensor sizes and ranks are `Nat`.
* `torch.chunk` along a list follows the documented PyTorch semantics:
  chunk size `ceil(len / chunks)`, and possibly fewer than `chunks`
  pieces, the last one shorter.
* Python list indexing `xs[i]` is modelled by `List.getD xs i default`;
  every theorem below that relies on an index keeps it in bounds, except
  where an out-of-bounds access is exactly the point being made.
* The distribution context (`mpu`) and `torch.distributed` are external
  to the sources under verification; their collectives are modelled from
  the interface contract: `all_gather`/`_gather` concatenates the
  per-rank tensors in rank order, `reduce` sums them elementwise, and
  `broadcast` makes the same value visible on every rank.  Cross-rank
  behaviour is simulated by running the (deterministic) per-rank code
  for every rank `0 ≤ r < world_size` on one host.
-/

namespace Oslo

/-- Ceiling division on naturals: `math.ceil(a / b)` for nonnegative ints. -/
def ceilDivNat (a b : Nat) : Nat := (a + b - 1) / b

/-- Running cumulative sum, as performed in place by the loop
`for i in range(1, len(indices)): indices[i] += indices[i-1]`. -/
def cumsumFrom (acc : Int) : List Int → List Int
  | [] => []
  | x :: xs => (acc + x) :: cumsumFrom (acc + x) xs

/-- `torch.chunk(l, n)` along one dimension of a tensor, here a list:
pieces of size `ceil(len l / n)`, the last piece possibly shorter, and
possibly fewer than `n` pieces. -/
def torchChunk (l : List α) (n : Nat) : List (List α) :=
  (List.range (ceilDivNat l.length (ceilDivNat l.length n))).map
    (fun i => ((l.drop (i * ceilDivNat l.length n)).take (ceilDivNat l.length n)))

/-- The size list built by
`VocabParallelEmbedding._get_partitioned_vocab_range`: `world_size`
entries of `ceil(V / W)` whose last entry is replaced by
`V - sum(indices[:-1])`. -/
def vocabSizedList (numEmbeddings worldSize : Nat) : List Int :=
  (List.replicate worldSize (ceilDivNat numEmbeddings worldSize : Int)).take (worldSize - 1) ++
    [(numEmbeddings : Int) -
      ((List.replicate worldSize (ceilDivNat numEmbeddings worldSize : Int)).take
        (worldSize - 1)).sum]

/-- The boundary list of `_get_partitioned_vocab_range`: the size list
with a leading zero inserted, then a cumulative sum in place. -/
def vocabRangeIndices (numEmbeddings worldSize : Nat) : List Int :=
  cumsumFrom 0 (0 :: vocabSizedList numEmbeddings worldSize)

/-- `VocabParallelEmbedding._get_partitioned_vocab_range(world_size, rank)`:
the half-open vocabulary interval owned by `rank`. -/
def getPartitionedVocabRange (numEmbeddings worldSize rank : Nat) : Int × Int :=
  ((vocabRangeIndices numEmbeddings worldSize).getD rank 0,
    (vocabRangeIndices numEmbeddings worldSize).getD (rank + 1) 0)

/-! ### Arithmetic facts about `ceilDivNat` -/

lemma ceilDivNat_eq_ceilDiv (a b : Nat) : ceilDivNat a b = a ⌈/⌉ b := rfl

lemma ceilDivNat_le_iff {a : Nat} (ha : 0 < a) {b c : Nat} :
    ceilDivNat b a ≤ c ↔ b ≤ a * c := by
  rw [ceilDivNat_eq_ceilDiv]; exact ceilDiv_le_iff_le_mul ha

lemma le_mul_ceilDivNat {a : Nat} (ha : 0 < a) (b : Nat) :
    b ≤ a * ceilDivNat b a :=
  (ceilDivNat_le_iff ha (b := b) (c := ceilDivNat b a)).mp le_rfl

lemma lt_div_succ_mul (n c : Nat) (hc : 0 < c) : n < (n / c + 1) * c := by
  have h1 := Nat.div_add_mod n c
  have h2 := Nat.mod_lt n hc
  have h3 : c * (n / c) + n % c < c * (n / c) + c := Nat.add_lt_add_left h2 _
  rw [h1] at h3
  calc n < c * (n / c) + c := h3
    _ = (n / c + 1) * c := by ring

lemma ceilDivNat_pos {a b : Nat} (ha : 0 < a) (hb : 0 < b) :
    0 < ceilDivNat b a := by
  by_contra h
  have := (ceilDivNat_le_iff ha (b := b) (c := 0)).mp (by omega)
  omega

/-! ### Closed form of the vocabulary partition -/

lemma cumsumFrom_append (a : Int) (l₁ l₂ : List Int) :
    cumsumFrom a (l₁ ++ l₂) = cumsumFrom a l₁ ++ cumsumFrom (a + l₁.sum) l₂ := by
  induction l₁ generalizing a with
  | nil => simp [cumsumFrom]
  | cons x xs ih =>
      show (a + x) :: cumsumFrom (a + x) (xs ++ l₂) =
        (a + x) :: (cumsumFrom (a + x) xs ++ cumsumFrom (a + (x + xs.sum)) l₂)
      rw [ih (a + x), ← add_assoc]

lemma cumsumFrom_replicate (a c : Int) (n : Nat) :
    cumsumFrom a (List.replicate n c) =
      (List.range n).map (fun (i : Nat) => a + ((i : Int) + 1) * c) := by
  induction n generalizing a with
  | zero => simp [cumsumFrom]
  | succ n ih =>
      rw [List.replicate_succ, List.range_succ_eq_map]
      simp only [cumsumFrom, ih (a + c), List.map_cons, List.map_map]
      congr 1
      · push_cast; ring
      · apply List.map_congr_left
        intro i _
        simp only [Function.comp_apply]
        push_cast
        ring

lemma sum_replicate_int (n : Nat) (c : Int) : (List.replicate n c).sum = n * c := by
  induction n with
  | zero => simp
  | succ n ih =>
      rw [List.replicate_succ, List.sum_cons, ih]
      push_cast
      ring

lemma vocabRangeIndices_eq (V W : Nat) (hW : 0 < W) :
    vocabRangeIndices V W =
      (List.range W).map (fun (r : Nat) => ((r * ceilDivNat V W : Nat) : Int)) ++
        [(V : Int)] := by
  unfold vocabRangeIndices vocabSizedList
  rw [List.take_replicate]
  have hmin : min (W - 1) W = W - 1 := by omega
  rw [hmin, sum_replicate_int]
  simp only [cumsumFrom]
  rw [cumsumFrom_append, cumsumFrom_replicate, sum_replicate_int]
  simp only [cumsumFrom, List.nil_append]
  obtain ⟨W', rfl⟩ : ∃ W', W = W' + 1 := ⟨W - 1, by omega⟩
  rw [List.range_succ_eq_map]
  simp only [Nat.add_sub_cancel, List.map_cons, List.map_map, List.cons_append]
  congr 1
  · push_cast; ring
  · congr 1
    · apply List.map_congr_left
      intro i _
      simp only [Function.comp_apply]
      push_cast
      ring
    · congr 1
      push_cast
      ring

lemma vocabRangeIndices_getD (V W r : Nat) (hW : 0 < W) :
    (vocabRangeIndices V W).getD r 0 =
      if r < W then ((r * ceilDivNat V W : Nat) : Int)
      else if r = W then (V : Int) else 0 := by
  rw [vocabRangeIndices_eq V W hW]
  have hlen : ((List.range W).map
      (fun (r : Nat) => ((r * ceilDivNat V W : Nat) : Int))).length = W := by simp
  by_cases h1 : r < W
  · rw [List.getD_append _ _ _ _ (by rw [hlen]; exact h1)]
    rw [List.getD_eq_getElem _ _ (by rw [hlen]; exact h1)]
    simp [h1]
  · by_cases h2 : r = W
    · subst h2
      rw [List.getD_append_right _ _ _ _ (by rw [hlen])]
      simp [hlen, h1]
    · have hout : ((List.range W).map
          (fun (r : Nat) => ((r * ceilDivNat V W : Nat) : Int)) ++ [(V : Int)]).length ≤ r := by
        simp only [List.length_append, hlen, List.length_singleton]
        omega
      rw [List.getD_eq_default _ _ hout]
      simp [h1, h2]

lemma getPartitionedVocabRange_eq (V W r : Nat) (hW : 0 < W) (hr : r < W) :
    getPartitionedVocabRange V W r =
      (((r * ceilDivNat V W : Nat) : Int),
        if r + 1 = W then (V : Int)
        else (((r + 1) * ceilDivNat V W : Nat) : Int)) := by
  unfold getPartitionedVocabRange
  rw [vocabRangeIndices_getD V W r hW, vocabRangeIndices_getD V W (r + 1) hW]
  simp only [hr, if_true]
  by_cases h : r + 1 = W
  · simp [h]
  · have h3 : r + 1 < W := by omega
    simp [h3, h]

/-- The partition property claimed of `_get_partitioned_vocab_range`:
the per-rank ranges are contiguous, pairwise disjoint, cover `[0, V)`
exactly, and every range except the last has size `ceil(V/W)`. -/
def vocabPartitionSpec (V W : Nat) : Prop :=
  (∀ r, r + 1 < W →
      (getPartitionedVocabRange V W r).2 = (getPartitionedVocabRange V W (r + 1)).1) ∧
  (∀ r s, r < W → s < W → r ≠ s → ∀ i : Int,
      ¬((getPartitionedVocabRange V W r).1 ≤ i ∧ i < (getPartitionedVocabRange V W r).2 ∧
        (getPartitionedVocabRange V W s).1 ≤ i ∧ i < (getPartitionedVocabRange V W s).2)) ∧
  (∀ i : Int, (0 ≤ i ∧ i < (V : Int)) ↔
      ∃ r, r < W ∧ (getPartitionedVocabRange V W r).1 ≤ i ∧
        i < (getPartitionedVocabRange V W r).2) ∧
  (∀ r, r + 1 < W →
      (getPartitionedVocabRange V W r).2 - (getPartitionedVocabRange V W r).1 =
        (ceilDivNat V W : Nat))

lemma vocab_disjoint_key (V W : Nat) (hW : 0 < W) :
    ∀ r s, r < s → s < W → ∀ i : Int,
      ¬((getPartitionedVocabRange V W r).1 ≤ i ∧ i < (getPartitionedVocabRange V W r).2 ∧
        (getPartitionedVocabRange V W s).1 ≤ i ∧ i < (getPartitionedVocabRange V W s).2) := by
  intro r s hrs hsW i hmem
  obtain ⟨h1, h2, h3, h4⟩ := hmem
  have hrW : r < W := by omega
  rw [getPartitionedVocabRange_eq V W r hW hrW] at h2
  rw [getPartitionedVocabRange_eq V W s hW hsW] at h3
  have hne : r + 1 ≠ W := by omega
  simp only [hne, if_false] at h2
  simp only at h3
  have hle : (r + 1) * ceilDivNat V W ≤ s * ceilDivNat V W :=
    Nat.mul_le_mul_right _ (by omega)
  have : i < i := by
    calc i < (((r + 1) * ceilDivNat V W : Nat) : Int) := h2
      _ ≤ ((s * ceilDivNat V W : Nat) : Int) := by exact_mod_cast hle
      _ ≤ i := h3
  omega

/-- Claim C4, counterexample: for `V = 5`, `W = 4` the computed ranges
are `[0,3) ∪ [3,6)`-style with rank 2 owning `[4,6)`, so the ranges do
not cover `[0,5)` exactly (the point `5` lies in rank 2's range but not
in `[0,V)`): the partition property fails as stated. -/
theorem claim4_counterexample : ¬ vocabPartitionSpec 5 4 := by
  intro h
  obtain ⟨-, -, hcov, -⟩ := h
  have h5 := (hcov 5).mpr ⟨2, by decide, by decide, by decide⟩
  exact absurd h5.2 (by decide)

/-- Claim C4 (amended): for every world size `W ≥ 1` and vocabulary size
`V ≥ 1` such that `(W-1) * ceil(V/W) ≤ V`, the per-rank vocabulary
ranges computed by `_get_partitioned_vocab_range` are contiguous,
non-overlapping, cover `[0, V)` exactly, and every range except the
last has size `ceil(V/W)`. -/
theorem claim4_vocab_partition (V W : Nat) (hW : 0 < W) (hV : 0 < V)
    (hcond : (W - 1) * ceilDivNat V W ≤ V) : vocabPartitionSpec V W := by
  have hc : 0 < ceilDivNat V W := ceilDivNat_pos hW hV
  refine ⟨?_, ?_, ?_, ?_⟩
  · -- contiguity
    intro r hr
    rw [getPartitionedVocabRange_eq V W r hW (by omega),
      getPartitionedVocabRange_eq V W (r + 1) hW (by omega)]
    have hne : r + 1 ≠ W := by omega
    simp [hne]
  · -- disjointness
    intro r s hrW hsW hne i
    rcases Nat.lt_or_ge r s with h | h
    · exact vocab_disjoint_key V W hW r s h hsW i
    · have hsr : s < r := by omega
      intro hmem
      exact vocab_disjoint_key V W hW s r hsr hrW i
        ⟨hmem.2.2.1, hmem.2.2.2, hmem.1, hmem.2.1⟩
  · -- exact coverage of [0, V)
    intro i
    constructor
    · rintro ⟨hi0, hiV⟩
      obtain ⟨n, rfl⟩ : ∃ n : Nat, i = (n : Int) := ⟨i.toNat, (Int.toNat_of_nonneg hi0).symm⟩
      have hnV : n < V := by exact_mod_cast hiV
      set c := ceilDivNat V W with hcdef
      rcases Nat.lt_or_ge (n / c) (W - 1) with hcase | hcase
      · refine ⟨n / c, by omega, ?_, ?_⟩
        · rw [getPartitionedVocabRange_eq V W (n / c) hW (by omega)]
          dsimp only
          exact_mod_cast Nat.div_mul_le_self n c
        · rw [getPartitionedVocabRange_eq V W (n / c) hW (by omega)]
          have hne : n / c + 1 ≠ W := by omega
          simp only [hne, if_false]
          exact_mod_cast lt_div_succ_mul n c hc
      · refine ⟨W - 1, by omega, ?_, ?_⟩
        · rw [getPartitionedVocabRange_eq V W (W - 1) hW (by omega)]
          dsimp only
          have h1 : (W - 1) * c ≤ n / c * c := Nat.mul_le_mul_right _ hcase
          have h2 : n / c * c ≤ n := Nat.div_mul_le_self n c
          exact_mod_cast le_trans h1 h2
        · rw [getPartitionedVocabRange_eq V W (W - 1) hW (by omega)]
          have heq : W - 1 + 1 = W := by omega
          simp only [heq, if_true]
          exact_mod_cast hnV
    · rintro ⟨r, hrW, hlo, hhi⟩
      rw [getPartitionedVocabRange_eq V W r hW hrW] at hlo hhi
      simp only at hlo
      constructor
      · calc (0 : Int) ≤ ((r * ceilDivNat V W : Nat) : Int) := by positivity
          _ ≤ i := hlo
      · by_cases hrl : r + 1 = W
        · simpa [hrl] using hhi
        · simp only [hrl, if_false] at hhi
          have hle : (r + 1) * ceilDivNat V W ≤ (W - 1) * ceilDivNat V W :=
            Nat.mul_le_mul_right _ (by omega)
          calc i < (((r + 1) * ceilDivNat V W : Nat) : Int) := hhi
            _ ≤ (((W - 1) * ceilDivNat V W : Nat) : Int) := by exact_mod_cast hle
            _ ≤ (V : Int) := by exact_mod_cast hcond
  · -- sizes of all but the last range
    intro r hr
    rw [getPartitionedVocabRange_eq V W r hW (by omega)]
    have hne : r + 1 ≠ W := by omega
    simp only [hne, if_false]
    push_cast
    ring

/-- Witness for claim C4's amended theorem at `V = 10`, `W = 4`. -/
theorem claim4_witness : vocabPartitionSpec 10 4 :=
  claim4_vocab_partition 10 4 (by decide) (by decide) (by decide)

/-! ### Claim C10: number of chunks produced by `torch.chunk` -/

lemma torchChunk_length (l : List α) (n : Nat) :
    (torchChunk l n).length = ceilDivNat l.length (ceilDivNat l.length n) := by
  simp [torchChunk]

/-- Claim C10, counterexample: for a 5-row embedding weight and world
size 4, `torch.chunk` yields only 3 chunks, so the access
`chunked_weights[rank]` in `_parallelize_embedding` is out of bounds for
rank 3. -/
theorem claim10_counterexample :
    ¬ 4 ≤ (torchChunk ([[0], [1], [2], [3], [4]] : List (List Int)) 4).length := by
  decide

lemma torchChunk_count_iff (l : List α) (W : Nat) (hW : 0 < W) (hL : 0 < l.length) :
    W ≤ (torchChunk l W).length ↔ (W - 1) * ceilDivNat l.length W < l.length := by
  rw [torchChunk_length]
  have hc : 0 < ceilDivNat l.length W := ceilDivNat_pos hW hL
  constructor
  · intro hk
    by_contra hno
    have hle : l.length ≤ ceilDivNat l.length W * (W - 1) := by
      rw [Nat.mul_comm]; omega
    have := (ceilDivNat_le_iff hc).mpr hle
    omega
  · intro hcond
    by_contra hno
    have hk : ceilDivNat l.length (ceilDivNat l.length W) ≤ W - 1 := by omega
    have := (ceilDivNat_le_iff hc).mp hk
    rw [Nat.mul_comm] at this
    omega

/-- Claim C10 (amended): for `W ≥ 1` and a nonempty tensor,
`torch.chunk(·, W, dim=0)` yields at least `W` chunks (so
`chunked_weights[rank]` is in bounds for every rank) if and only if
`(W-1) * ceil(V/W) < V` where `V` is the dimension being chunked. -/
theorem claim10_chunk_count (l : List α) (W : Nat) (hW : 0 < W) (hL : 0 < l.length) :
    W ≤ (torchChunk l W).length ↔ (W - 1) * ceilDivNat l.length W < l.length :=
  torchChunk_count_iff l W hW hL

/-- Witness for claim C10's amended theorem at an 8-row weight and
`W = 4`: exactly enough rows, so all four ranks index in bounds. -/
theorem claim10_witness :
    4 ≤ (torchChunk ([[0], [1], [2], [3], [4], [5], [6], [7]] : List (List Int)) 4).length :=
  (claim10_chunk_count _ 4 (by decide) (by decide)).mpr (by decide)

/-! ### Config-attribute rescaling (`_update_mp_arguments` of both engines)

The attribute bag patched onto a module by dynamic attribute assignment
is modelled as an association list from attribute name to integer
value; `hasattr`/`getattr`/`setattr` become the list operations below.
-/

/-- An attribute bag: named integer configuration values on a module. -/
abbrev Attrs := List (String × Int)

/-- `getattr(module, name)` on the attribute bag. -/
def getAttr (attrs : Attrs) (name : String) : Option Int :=
  (attrs.find? (fun p => p.1 == name)).map Prod.snd

/-- One step of the `_update_mp_arguments` loop body:
`if hasattr(module, elem.name): setattr(module, elem.name, f(getattr(...)))`. -/
def setAttrIfPresent (name : String) (f : Int → Int) (attrs : Attrs) : Attrs :=
  if attrs.any (fun p => p.1 == name) then
    attrs.map (fun p => if p.1 == name then (p.1, f p.2) else p)
  else attrs

/-- The full `for elem in self.tp_mapping.update_attrs(...)` loop of
`_update_mp_arguments`, applied to one module's attribute bag. -/
def applyUpdateAttrs (f : Int → Int) (names : List String) (attrs : Attrs) : Attrs :=
  names.foldl (fun acc n => setAttrIfPresent n f acc) attrs

/-- The per-attribute transformation applied by
`TensorParallelEngine1D._update_mp_arguments`: Python floor division by
the world size. -/
def parallelRescaleAttr (h : Int) (worldSize : Nat) : Int := Int.fdiv h worldSize

/-- The per-attribute transformation applied by
`TensorDeparallelEngine1D._update_mp_arguments`: multiplication by the
world size. -/
def deparallelRescaleAttr (h : Int) (worldSize : Nat) : Int := h * worldSize

lemma setAttrIfPresent_eq_map (name : String) (f : Int → Int) (attrs : Attrs) :
    setAttrIfPresent name f attrs =
      attrs.map (fun p => if p.1 == name then (p.1, f p.2) else p) := by
  unfold setAttrIfPresent
  by_cases h : attrs.any (fun p => p.1 == name)
  · simp [h]
  · simp only [h, if_false]
    have habs : ∀ p ∈ attrs, ¬(p.1 == name) = true := by
      intro p hp hcontra
      exact h (List.any_eq_true.mpr ⟨p, hp, hcontra⟩)
    conv_lhs => rw [← List.map_id attrs]
    apply List.map_congr_left
    intro p hp
    simp [habs p hp]

lemma applyUpdateAttrs_eq_map (f : Int → Int) (names : List String) (attrs : Attrs)
    (hnd : names.Nodup) :
    applyUpdateAttrs f names attrs =
      attrs.map (fun p => if p.1 ∈ names then (p.1, f p.2) else p) := by
  induction names generalizing attrs with
  | nil =>
      simp only [applyUpdateAttrs, List.foldl_nil]
      conv_lhs => rw [← List.map_id attrs]
      apply List.map_congr_left
      intro p hp
      simp
  | cons n ns ih =>
      have hnd2 : ns.Nodup := hnd.of_cons
      have hnmem : n ∉ ns := by
        intro hmem
        exact (List.nodup_cons.mp hnd).1 hmem
      show applyUpdateAttrs f ns (setAttrIfPresent n f attrs) = _
      rw [ih _ hnd2, setAttrIfPresent_eq_map, List.map_map]
      apply List.map_congr_left
      intro p _
      simp only [Function.comp_apply]
      by_cases hpn : p.1 = n
      · have hb : (p.1 == n) = true := by simp [hpn]
        simp only [hb, if_true]
        have hmem : p.1 ∈ n :: ns := by simp [hpn]
        have hnot : p.1 ∉ ns := by rw [hpn]; exact hnmem
        simp [hnot, hmem]
      · have hb : (p.1 == n) = false := by simp [hpn]
        simp only [hb, Bool.false_eq_true, if_false]
        by_cases hmem : p.1 ∈ ns
        · have : p.1 ∈ n :: ns := List.mem_cons_of_mem _ hmem
          simp [hmem, this]
        · have : p.1 ∉ n :: ns := by simp [hpn, hmem]
          simp [hmem, this]

lemma getAttr_map_update (attrs : Attrs) (names : List String) (f : Int → Int)
    (n : String) (hmem : n ∈ names) :
    getAttr (attrs.map (fun p => if p.1 ∈ names then (p.1, f p.2) else p)) n =
      (getAttr attrs n).map f := by
  induction attrs with
  | nil => simp [getAttr]
  | cons p ps ih =>
      by_cases hpn : p.1 = n
      · have hin : p.1 ∈ names := by rw [hpn]; exact hmem
        simp only [getAttr, List.map_cons, hin, if_true, List.find?]
        have hb : (p.1 == n) = true := by simp [hpn]
        simp [hb]
      · have hb : (p.1 == n) = false := by simp [hpn]
        simp only [getAttr, List.map_cons, List.find?]
        by_cases hin : p.1 ∈ names
        · simp only [hin, if_true, hb]
          exact ih
        · simp only [hin, if_false, hb]
          exact ih

/-- Claim C7: for an attribute named in the mapping table's rescale
list and carried by a module with value `h`, the parallelize engine
stores `h // world_size`, the deparallelize engine stores
`value * world_size`, and the down-then-up composite restores `h`
exactly when `world_size` divides `h` (and loses information
otherwise). -/
theorem claim7_rescale (names : List String) (attrs : Attrs) (n : String)
    (h : Int) (W : Nat) (hnd : names.Nodup) (hmem : n ∈ names)
    (hget : getAttr attrs n = some h) :
    getAttr (applyUpdateAttrs (fun v => parallelRescaleAttr v W) names attrs) n =
      some (Int.fdiv h W) ∧
    getAttr (applyUpdateAttrs (fun v => deparallelRescaleAttr v W) names attrs) n =
      some (h * W) ∧
    (deparallelRescaleAttr (parallelRescaleAttr h W) W = h ↔ (W : Int) ∣ h) := by
  refine ⟨?_, ?_, ?_⟩
  · rw [applyUpdateAttrs_eq_map _ _ _ hnd]
    have h2 := getAttr_map_update attrs names (fun v => parallelRescaleAttr v W) n hmem
    rw [hget] at h2
    simpa [parallelRescaleAttr] using h2
  · rw [applyUpdateAttrs_eq_map _ _ _ hnd]
    have h2 := getAttr_map_update attrs names (fun v => deparallelRescaleAttr v W) n hmem
    rw [hget] at h2
    simpa [deparallelRescaleAttr] using h2
  · unfold deparallelRescaleAttr parallelRescaleAttr
    constructor
    · intro heq
      refine ⟨Int.fdiv h W, ?_⟩
      rw [mul_comm] at heq
      exact heq.symm
    · intro hdvd
      rw [Int.fdiv_eq_ediv_of_dvd hdvd]
      exact Int.ediv_mul_cancel hdvd

/-! ### `VocabParallelEmbedding.forward` (`distributed.py`, lines 28-58)

`self.num_embeddings` of the sharded embedding is unchanged by
`_parallelize_embedding` (only `weight.data` is replaced), so the range
computation sees the full vocabulary size `V = table.length` while
`self.weight` holds this rank's chunk of the full table.  The per-rank
forward body is pure; the single `self.mpu.reduce` call site at line 57
is recorded in a trace of collective invocations, and its cross-rank
result is the elementwise sum of the per-rank contributions (the
distribution context's contract for `reduce`). -/

/-- A 2-D tensor: a list of rows. -/
abbrev Mat := List (List Int)

/-- `F.embedding(indices, weight)`: per-index row lookup. -/
def embeddingLookup (weight : Mat) (inputs : List Nat) : Mat :=
  inputs.map (fun i => weight.getD i [])

/-- The shard of the full embedding table installed on rank `r` by
`_parallelize_embedding`: `torch.chunk(embedding.weight, W, dim=0)[r]`. -/
def shardWeight (table : Mat) (W r : Nat) : Mat := (torchChunk table W).getD r []

/-- The collective entry points of the distribution context. -/
inductive Collective
  | reduce
  | gatherAll
  | broadcastAll
deriving DecidableEq

/-- `input_mask = (inputs < vocab_start_index) | (inputs >= vocab_end_index)`
for one token id. -/
def vocabInputMask (V W r : Nat) (i : Nat) : Bool :=
  ((i : Int) < (getPartitionedVocabRange V W r).1) ||
    ((getPartitionedVocabRange V W r).2 ≤ (i : Int))

/-- `masked_input`: ids shifted by `-vocab_start_index` with masked
entries set to `0`; when `world_size == 1` the inputs pass through
unchanged. -/
def vocabMaskedInput (V W r : Nat) (inputs : List Nat) : List Nat :=
  if 1 < W then
    inputs.map (fun i =>
      if vocabInputMask V W r i then 0
      else ((i : Int) - (getPartitionedVocabRange V W r).1).toNat)
  else inputs

/-- `output_parallel = F.embedding(masked_input, self.weight, ...)` on rank `r`. -/
def vocabOutputParallel (table : Mat) (W r : Nat) (inputs : List Nat) : Mat :=
  embeddingLookup (shardWeight table W r) (vocabMaskedInput table.length W r inputs)

/-- `output_parallel[input_mask, :] = 0.0`: zero the rows of masked ids. -/
def zeroMaskedRows (mask : List Bool) (rows : Mat) : Mat :=
  (mask.zip rows).map (fun p => if p.1 then p.2.map (fun _ => 0) else p.2)

/-- The local tensor passed to `self.mpu.reduce` by rank `r`. -/
def vocabOutputZeroed (table : Mat) (W r : Nat) (inputs : List Nat) : Mat :=
  if 1 < W then
    zeroMaskedRows (inputs.map (vocabInputMask table.length W r))
      (vocabOutputParallel table W r inputs)
  else vocabOutputParallel table W r inputs

/-- One rank's execution of `VocabParallelEmbedding.forward`: the local
contribution handed to the reduce collective, together with the trace of
collective calls the rank makes (line 57 calls `self.mpu.reduce`
unconditionally). -/
def vocabForwardRank (table : Mat) (W r : Nat) (inputs : List Nat) :
    Mat × List Collective :=
  (vocabOutputZeroed table W r inputs, [Collective.reduce])

/-- Elementwise sum of two equally-shaped 2-D tensors. -/
def matAdd (a b : Mat) : Mat :=
  List.zipWith (fun ra rb => List.zipWith (· + ·) ra rb) a b

/-- The distribution context's `reduce`: elementwise sum of the
per-rank tensors. -/
def mpuReduce : List Mat → Mat
  | [] => []
  | t :: rest => rest.foldl matAdd t

/-- The cross-rank result of `VocabParallelEmbedding.forward`: the
reduce collective applied to every rank's local contribution. -/
def vocabParallelForwardSystem (table : Mat) (W : Nat) (inputs : List Nat) : Mat :=
  mpuReduce ((List.range W).map (fun r => (vocabForwardRank table W r inputs).1))

lemma ceilDivNat_zero_left (b : Nat) : ceilDivNat 0 b = 0 := by
  cases b with
  | zero => simp [ceilDivNat]
  | succ m =>
      show (0 + (m + 1) - 1) / (m + 1) = 0
      apply Nat.div_eq_of_lt
      omega

lemma torchChunk_nil (n : Nat) : torchChunk ([] : List α) n = [] := by
  unfold torchChunk
  simp [ceilDivNat_zero_left]

lemma torchChunk_one (l : List α) (h : l ≠ []) : torchChunk l 1 = [l] := by
  have hL : 0 < l.length := List.length_pos.mpr h
  have hc : ceilDivNat l.length 1 = l.length := by
    unfold ceilDivNat; omega
  have hk : ceilDivNat l.length l.length = 1 := by
    unfold ceilDivNat
    exact Nat.div_eq_of_lt_le (by omega) (by omega)
  unfold torchChunk
  rw [hc, hk]
  show [(l.drop (0 * l.length)).take l.length] = [l]
  simp

lemma shardWeight_one (table : Mat) : shardWeight table 1 0 = table := by
  unfold shardWeight
  by_cases h : table = []
  · subst h; rfl
  · rw [torchChunk_one _ h]
    rfl

/-- Claim C6, counterexample: even at world size 1,
`VocabParallelEmbedding.forward` still invokes the distribution
context's `reduce` entry point (line 57 is unconditional), so the rank
makes a collective call. -/
theorem claim6_counterexample :
    (vocabForwardRank [[1, 2], [3, 4]] 1 0 [0, 1]).2 ≠ [] := by decide

/-- Claim C6 (amended): when `world_size == 1`,
`VocabParallelEmbedding.forward` performs no masking of the input ids
(`masked_input` is the inputs unchanged) and computes exactly the
original unsharded embedding lookup, both locally and after the
reduce; however the forward still invokes the `reduce` collective entry
point, which at world size 1 returns its argument unchanged. -/
theorem claim6_forward_world1 (table : Mat) (inputs : List Nat) :
    vocabMaskedInput table.length 1 0 inputs = inputs ∧
    (vocabForwardRank table 1 0 inputs).1 = embeddingLookup table inputs ∧
    vocabParallelForwardSystem table 1 inputs = embeddingLookup table inputs ∧
    (vocabForwardRank table 1 0 inputs).2 = [Collective.reduce] := by
  refine ⟨rfl, ?_, ?_, rfl⟩
  · show vocabOutputZeroed table 1 0 inputs = embeddingLookup table inputs
    unfold vocabOutputZeroed vocabOutputParallel
    rw [if_neg (by omega), shardWeight_one]
    rfl
  · show mpuReduce ((List.range 1).map (fun r => vocabOutputZeroed table 1 r inputs)) = _
    show mpuReduce [vocabOutputZeroed table 1 0 inputs] = _
    show vocabOutputZeroed table 1 0 inputs = _
    unfold vocabOutputZeroed vocabOutputParallel
    rw [if_neg (by omega), shardWeight_one]
    rfl

/-! ### Summed shard outputs versus the full lookup -/

/-- The row rank `r` contributes for a single token id `i` when
`world_size > 1` (the per-element view of `vocabOutputZeroed`): a
zeroed row when the id is outside this rank's range, the shard row at
the shifted index otherwise. -/
def vocabRankRow (table : Mat) (W r i : Nat) : List Int :=
  if vocabInputMask table.length W r i then
    ((shardWeight table W r).getD 0 []).map (fun _ => 0)
  else
    (shardWeight table W r).getD
      (((i : Int) - (getPartitionedVocabRange table.length W r).1).toNat) []

lemma vocabOutputZeroed_eq_map (table : Mat) (W r : Nat) (inputs : List Nat)
    (hW : 1 < W) :
    vocabOutputZeroed table W r inputs = inputs.map (vocabRankRow table W r) := by
  unfold vocabOutputZeroed vocabOutputParallel vocabMaskedInput embeddingLookup
  rw [if_pos hW, if_pos hW, List.map_map]
  unfold zeroMaskedRows
  rw [List.zip_map', List.map_map]
  apply List.map_congr_left
  intro i _
  simp only [Function.comp_apply]
  unfold vocabRankRow
  by_cases hm : vocabInputMask table.length W r i
  · simp [hm]
  · simp [hm]

lemma matAdd_map (g h : Nat → List Int) (inputs : List Nat) :
    matAdd (inputs.map g) (inputs.map h) =
      inputs.map (fun i => List.zipWith (· + ·) (g i) (h i)) := by
  unfold matAdd
  induction inputs with
  | nil => rfl
  | cons i is ih => simp only [List.map_cons, List.zipWith_cons_cons, ih]

lemma foldl_matAdd_maps (f : Nat → Nat → List Int) (g : Nat → List Int)
    (inputs : List Nat) (rs : List Nat) :
    List.foldl matAdd (inputs.map g) (rs.map (fun r => inputs.map (f r))) =
      inputs.map (fun i =>
        List.foldl (fun acc row => List.zipWith (· + ·) acc row) (g i)
          (rs.map (fun r => f r i))) := by
  induction rs generalizing g with
  | nil => simp
  | cons r rs ih =>
      simp only [List.map_cons, List.foldl_cons]
      rw [matAdd_map]
      exact ih (fun i => List.zipWith (· + ·) (g i) (f r i))

lemma zipWith_add_replicate_right (v : List Int) :
    List.zipWith (· + ·) v (List.replicate v.length 0) = v := by
  induction v with
  | nil => rfl
  | cons x xs ih => simp only [List.length_cons, List.replicate_succ,
      List.zipWith_cons_cons, add_zero, ih]

lemma zipWith_add_replicate_left (v : List Int) :
    List.zipWith (· + ·) (List.replicate v.length 0) v = v := by
  induction v with
  | nil => rfl
  | cons x xs ih => simp only [List.length_cons, List.replicate_succ,
      List.zipWith_cons_cons, zero_add, ih]

lemma map_zero_eq_replicate (l : List Int) :
    l.map (fun _ => (0 : Int)) = List.replicate l.length 0 := by
  induction l with
  | nil => rfl
  | cons x xs ih => simp only [List.map_cons, List.length_cons,
      List.replicate_succ, ih]

/-- The reduce collective restricted to a single row position: the
running elementwise sum of the per-rank rows. -/
def rowReduceList : List (List Int) → List Int
  | [] => []
  | x :: xs => xs.foldl (fun acc row => List.zipWith (· + ·) acc row) x

lemma foldl_rowAdd_zeros (v : List Int) (zs : List (List Int))
    (hz : ∀ z ∈ zs, z = List.replicate v.length 0) :
    List.foldl (fun acc row => List.zipWith (· + ·) acc row) v zs = v := by
  induction zs with
  | nil => rfl
  | cons z zs ih =>
      simp only [List.foldl_cons]
      rw [hz z (List.mem_cons_self _ _), zipWith_add_replicate_right]
      exact ih (fun z hz2 => hz z (List.mem_cons_of_mem _ hz2))

lemma foldl_rowAdd_zeroacc (d : Nat) (zs : List (List Int))
    (hz : ∀ z ∈ zs, z = List.replicate d 0) :
    List.foldl (fun acc row => List.zipWith (· + ·) acc row)
      (List.replicate d 0) zs = List.replicate d 0 := by
  have h := foldl_rowAdd_zeros (List.replicate d 0) zs
  simp only [List.length_replicate] at h
  exact h hz

lemma rowReduceList_zeros_append (pre post : List (List Int)) (v : List Int) (d : Nat)
    (hpre : ∀ z ∈ pre, z = List.replicate d 0)
    (hpost : ∀ z ∈ post, z = List.replicate d 0)
    (hv : v.length = d) :
    rowReduceList (pre ++ v :: post) = v := by
  cases pre with
  | nil =>
      show List.foldl _ v post = v
      refine foldl_rowAdd_zeros v post ?_
      rw [hv]
      exact hpost
  | cons z pre2 =>
      show List.foldl _ z (pre2 ++ v :: post) = v
      rw [List.foldl_append, hpre z (List.mem_cons_self _ _),
        foldl_rowAdd_zeroacc d pre2 (fun z hz => hpre z (List.mem_cons_of_mem _ hz))]
      show List.foldl _ (List.zipWith _ (List.replicate d 0) v) post = v
      rw [← hv, zipWith_add_replicate_left]
      refine foldl_rowAdd_zeros v post ?_
      rw [hv]
      exact hpost

lemma rowReduceList_single_hot (W r0 : Nat) (F : Nat → List Int) (d : Nat)
    (hr0 : r0 < W)
    (hzero : ∀ r, r < W → r ≠ r0 → F r = List.replicate d 0)
    (hlen : (F r0).length = d) :
    rowReduceList ((List.range W).map F) = F r0 := by
  have hsplit : List.range W =
      List.range r0 ++ r0 :: (List.range (W - r0 - 1)).map (fun k => r0 + 1 + k) := by
    have h1 : W = (r0 + 1) + (W - r0 - 1) := by omega
    rw [h1, List.range_add, List.range_succ]
    simp only [List.append_assoc, List.singleton_append]
    have h2 : r0 + 1 + (W - r0 - 1) - r0 - 1 = W - r0 - 1 := by omega
    rw [h2]
  rw [hsplit, List.map_append, List.map_cons, List.map_map]
  refine rowReduceList_zeros_append _ _ _ d ?_ ?_ hlen
  · intro z hz
    obtain ⟨r, hrmem, rfl⟩ := List.mem_map.mp hz
    have hrlt : r < r0 := List.mem_range.mp hrmem
    exact hzero r (by omega) (by omega)
  · intro z hz
    obtain ⟨k, hkmem, hzeq⟩ := List.mem_map.mp hz
    have hklt : k < W - r0 - 1 := List.mem_range.mp hkmem
    rw [← hzeq]
    simp only [Function.comp_apply]
    exact hzero (r0 + 1 + k) (by omega) (by omega)

lemma rowReduceList_range_succ (F : Nat → List Int) (w : Nat) :
    rowReduceList ((List.range (w + 1)).map F) =
      List.foldl (fun acc row => List.zipWith (· + ·) acc row) (F 0)
        (((List.range w).map Nat.succ).map F) := by
  rw [List.range_succ_eq_map, List.map_cons]
  rfl

lemma torchChunk_getD (l : List α) (n r : Nat) (hr : r < (torchChunk l n).length) :
    (torchChunk l n).getD r [] =
      (l.drop (r * ceilDivNat l.length n)).take (ceilDivNat l.length n) := by
  unfold torchChunk at hr ⊢
  rw [List.getD_eq_getElem _ _ hr]
  simp

lemma shardWeight_getD_eq (table : Mat) (W r j : Nat) (hW : 0 < W) (hr : r < W)
    (hcond : (W - 1) * ceilDivNat table.length W < table.length)
    (hj : j < ceilDivNat table.length W)
    (hjV : r * ceilDivNat table.length W + j < table.length) :
    (shardWeight table W r).getD j [] =
      table.getD (r * ceilDivNat table.length W + j) [] := by
  have hV : 0 < table.length := by omega
  have hWlen : W ≤ (torchChunk table W).length :=
    (torchChunk_count_iff table W hW hV).mpr hcond
  unfold shardWeight
  rw [torchChunk_getD _ _ _ (lt_of_lt_of_le hr hWlen)]
  have hlen1 : j < ((table.drop (r * ceilDivNat table.length W)).take
      (ceilDivNat table.length W)).length := by
    simp only [List.length_take, List.length_drop]
    omega
  rw [List.getD_eq_getElem _ _ hlen1, List.getD_eq_getElem _ _ hjV]
  rw [List.getElem_take, List.getElem_drop]

/-- Claim C5: for world size `W > 1`, a batch of token ids all within
`[0, V)`, and a vocabulary that `torch.chunk` splits into exactly `W`
shards (`(W-1)*ceil(V/W) < V`), summing the per-shard outputs of
`VocabParallelEmbedding.forward` over all ranks — each shard masking
out-of-range ids, clamping the lookup index, and zeroing masked rows
before the reduce — equals the unsharded embedding lookup of the full
table, exactly. -/
theorem claim5_vocab_forward_sum (table : Mat) (W d : Nat) (inputs : List Nat)
    (hW : 1 < W)
    (hcond : (W - 1) * ceilDivNat table.length W < table.length)
    (huni : ∀ row ∈ table, row.length = d)
    (hin : ∀ i ∈ inputs, i < table.length) :
    vocabParallelForwardSystem table W inputs = embeddingLookup table inputs := by
  have hV : 0 < table.length := by omega
  have hc0 : 0 < ceilDivNat table.length W := ceilDivNat_pos (by omega) hV
  have hVle : table.length ≤ W * ceilDivNat table.length W :=
    le_mul_ceilDivNat (by omega) table.length
  unfold vocabParallelForwardSystem
  have hmap : (List.range W).map (fun r => (vocabForwardRank table W r inputs).1) =
      (List.range W).map (fun r => inputs.map (vocabRankRow table W r)) := by
    apply List.map_congr_left
    intro r _
    exact vocabOutputZeroed_eq_map table W r inputs hW
  rw [hmap]
  obtain ⟨w, rfl⟩ : ∃ w, W = w + 1 := ⟨W - 1, by omega⟩
  have hcondw : w * ceilDivNat table.length (w + 1) < table.length := by
    have h := hcond
    simp only [Nat.add_sub_cancel] at h
    exact h
  have hWexp : (w + 1) * ceilDivNat table.length (w + 1) =
      w * ceilDivNat table.length (w + 1) + ceilDivNat table.length (w + 1) := by ring
  rw [List.range_succ_eq_map, List.map_cons]
  show List.foldl matAdd (inputs.map (vocabRankRow table (w + 1) 0))
      (((List.range w).map Nat.succ).map
        (fun r => inputs.map (vocabRankRow table (w + 1) r))) = _
  rw [foldl_matAdd_maps (fun r => vocabRankRow table (w + 1) r)
    (vocabRankRow table (w + 1) 0) inputs ((List.range w).map Nat.succ)]
  unfold embeddingLookup
  apply List.map_congr_left
  intro i hi
  rw [← rowReduceList_range_succ (fun r => vocabRankRow table (w + 1) r i) w]
  have hiV : i < table.length := hin i hi
  -- the owner rank of id i
  have howner : ∃ r0, r0 < w + 1 ∧
      (getPartitionedVocabRange table.length (w + 1) r0).1 ≤ (i : Int) ∧
      (i : Int) < (getPartitionedVocabRange table.length (w + 1) r0).2 ∧
      r0 * ceilDivNat table.length (w + 1) ≤ i ∧
      i < r0 * ceilDivNat table.length (w + 1) + ceilDivNat table.length (w + 1) := by
    rcases Nat.lt_or_ge (i / ceilDivNat table.length (w + 1)) w with hcase | hcase
    · refine ⟨i / ceilDivNat table.length (w + 1), by omega, ?_, ?_, ?_, ?_⟩
      · rw [getPartitionedVocabRange_eq _ _ _ (by omega) (by omega)]
        dsimp only
        exact_mod_cast Nat.div_mul_le_self i _
      · rw [getPartitionedVocabRange_eq _ _ _ (by omega) (by omega)]
        have hne : i / ceilDivNat table.length (w + 1) + 1 ≠ w + 1 := by omega
        simp only [hne, if_false]
        exact_mod_cast lt_div_succ_mul i _ hc0
      · exact Nat.div_mul_le_self i _
      · have h3 := lt_div_succ_mul i (ceilDivNat table.length (w + 1)) hc0
        have h4 : (i / ceilDivNat table.length (w + 1) + 1) *
            ceilDivNat table.length (w + 1) =
            i / ceilDivNat table.length (w + 1) * ceilDivNat table.length (w + 1) +
              ceilDivNat table.length (w + 1) := by ring
        omega
    · refine ⟨w, by omega, ?_, ?_, ?_, ?_⟩
      · rw [getPartitionedVocabRange_eq _ _ _ (by omega) (by omega)]
        dsimp only
        have h1 : w * ceilDivNat table.length (w + 1) ≤
            i / ceilDivNat table.length (w + 1) * ceilDivNat table.length (w + 1) :=
          Nat.mul_le_mul_right _ hcase
        have h2 : i / ceilDivNat table.length (w + 1) *
            ceilDivNat table.length (w + 1) ≤ i := Nat.div_mul_le_self i _
        exact_mod_cast le_trans h1 h2
      · rw [getPartitionedVocabRange_eq _ _ _ (by omega) (by omega)]
        simp only [if_pos rfl]
        exact_mod_cast hiV
      · have h1 : w * ceilDivNat table.length (w + 1) ≤
            i / ceilDivNat table.length (w + 1) * ceilDivNat table.length (w + 1) :=
          Nat.mul_le_mul_right _ hcase
        have h2 : i / ceilDivNat table.length (w + 1) *
            ceilDivNat table.length (w + 1) ≤ i := Nat.div_mul_le_self i _
        omega
      · omega
  obtain ⟨r0, hr0W, hlo, hhi, hlo2, hhi2⟩ := howner
  -- every rank's shard starts with a genuine row of the table
  have hzrow : ∀ r, r < w + 1 →
      ((shardWeight table (w + 1) r).getD 0 []).length = d := by
    intro r hrW
    have h1 : (shardWeight table (w + 1) r).getD 0 [] =
        table.getD (r * ceilDivNat table.length (w + 1) + 0) [] := by
      refine shardWeight_getD_eq table (w + 1) r 0 (by omega) hrW hcond hc0 ?_
      have : r * ceilDivNat table.length (w + 1) ≤ w * ceilDivNat table.length (w + 1) :=
        Nat.mul_le_mul_right _ (by omega)
      omega
    rw [h1]
    have hb : r * ceilDivNat table.length (w + 1) + 0 < table.length := by
      have : r * ceilDivNat table.length (w + 1) ≤ w * ceilDivNat table.length (w + 1) :=
        Nat.mul_le_mul_right _ (by omega)
      omega
    rw [List.getD_eq_getElem _ _ hb]
    exact huni _ (List.getElem_mem _)
  rw [rowReduceList_single_hot (w + 1) r0 _ d hr0W ?_ ?_]
  · -- the owner's row is the full-table row
    unfold vocabRankRow
    have hmask : vocabInputMask table.length (w + 1) r0 i = false := by
      unfold vocabInputMask
      simp only [Bool.or_eq_false_iff, decide_eq_false_iff_not, not_lt, not_le]
      exact ⟨hlo, hhi⟩
    rw [hmask]
    simp only [Bool.false_eq_true, if_false]
    have hstart : (getPartitionedVocabRange table.length (w + 1) r0).1 =
        ((r0 * ceilDivNat table.length (w + 1) : Nat) : Int) := by
      rw [getPartitionedVocabRange_eq _ _ _ (by omega) hr0W]
    rw [hstart]
    have hidx : (((i : Int) - ((r0 * ceilDivNat table.length (w + 1) : Nat) : Int)).toNat) =
        i - r0 * ceilDivNat table.length (w + 1) := by omega
    rw [hidx]
    rw [shardWeight_getD_eq table (w + 1) r0 _ (by omega) hr0W hcond (by omega) (by omega)]
    congr 1
    omega
  · -- all other ranks contribute a zero row
    intro r hrW hrne
    unfold vocabRankRow
    have hmask : vocabInputMask table.length (w + 1) r i = true := by
      by_contra hmf
      have hmf2 : vocabInputMask table.length (w + 1) r i = false := by
        cases h : vocabInputMask table.length (w + 1) r i
        · rfl
        · exact absurd h hmf
      unfold vocabInputMask at hmf2
      simp only [Bool.or_eq_false_iff, decide_eq_false_iff_not, not_lt, not_le] at hmf2
      rcases Nat.lt_or_ge r r0 with hord | hord
      · exact vocab_disjoint_key table.length (w + 1) (by omega) r r0 hord hr0W i
          ⟨hmf2.1, hmf2.2, hlo, hhi⟩
      · have hord2 : r0 < r := by omega
        exact vocab_disjoint_key table.length (w + 1) (by omega) r0 r hord2 hrW i
          ⟨hlo, hhi, hmf2.1, hmf2.2⟩
    rw [hmask]
    simp only [if_true]
    rw [map_zero_eq_replicate, hzrow r hrW]
  · -- the owner's row has width d
    unfold vocabRankRow
    have hmask : vocabInputMask table.length (w + 1) r0 i = false := by
      unfold vocabInputMask
      simp only [Bool.or_eq_false_iff, decide_eq_false_iff_not, not_lt, not_le]
      exact ⟨hlo, hhi⟩
    rw [hmask]
    simp only [Bool.false_eq_true, if_false]
    have hstart : (getPartitionedVocabRange table.length (w + 1) r0).1 =
        ((r0 * ceilDivNat table.length (w + 1) : Nat) : Int) := by
      rw [getPartitionedVocabRange_eq _ _ _ (by omega) hr0W]
    rw [hstart]
    have hidx : (((i : Int) - ((r0 * ceilDivNat table.length (w + 1) : Nat) : Int)).toNat) =
        i - r0 * ceilDivNat table.length (w + 1) := by omega
    rw [hidx]
    rw [shardWeight_getD_eq table (w + 1) r0 _ (by omega) hr0W hcond (by omega) (by omega)]
    have hb : r0 * ceilDivNat table.length (w + 1) +
        (i - r0 * ceilDivNat table.length (w + 1)) < table.length := by omega
    rw [List.getD_eq_getElem _ _ hb]
    exact huni _ (List.getElem_mem _)

/-- Witness for claim C5: a 4-row table of width 2 split over
`W = 2` ranks, with one id in each shard's range. -/
theorem claim5_witness :
    vocabParallelForwardSystem [[1, 2], [3, 4], [5, 6], [7, 8]] 2 [0, 3, 2, 1] =
      embeddingLookup [[1, 2], [3, 4], [5, 6], [7, 8]] [0, 3, 2, 1] :=
  claim5_vocab_forward_sum [[1, 2], [3, 4], [5, 6], [7, 8]] 2 2 [0, 3, 2, 1]
    (by decide) (by decide) (by decide) (by decide)

/-! ### Weight slicing: `_slice` and `_deconstruct_combined_qkv`

`_deconstruct_combined_qkv` receives the tuple of
`fusion_degree * world_size` chunks, groups it into
`ranks = ceil(len/world_size)` rows of `world_size` chunks, transposes
with Python `zip(*...)` (which truncates to the shortest row), and
concatenates each transposed row with `torch.cat(..., dim=-1)` — the
LAST dimension, regardless of the dimension the chunks were split
along. -/

/-- Length of the shortest member, as Python `zip(*ls)` stops at it
(`zip()` of nothing is empty). -/
def minLen (ls : List (List α)) : Nat :=
  match ls with
  | [] => 0
  | l :: rest => rest.foldl (fun a b => min a b.length) l.length

/-- Python `zip(*ls)`: the truncating transpose. -/
def pyZip [Inhabited α] (ls : List (List α)) : List (List α) :=
  (List.range (minLen ls)).map (fun i => ls.map (fun l => l.getD i default))

/-- `torch.cat(ts, dim=0)` on 1-D tensors (also `dim=-1` for 1-D). -/
def cat0 (ts : List (List α)) : List α := ts.flatten

/-- The dim-1 extent of a 2-D tensor: the length of its first row. -/
def dim1Width (m : List (List α)) : Nat := (m.headD []).length

/-- `torch.chunk(m, n, dim=1)` on a (rectangular) 2-D tensor. -/
def torchChunkDim1 (m : List (List α)) (n : Nat) : List (List (List α)) :=
  (List.range (ceilDivNat (dim1Width m) (ceilDivNat (dim1Width m) n))).map
    (fun j => m.map (fun row =>
      (row.drop (j * ceilDivNat (dim1Width m) n)).take (ceilDivNat (dim1Width m) n)))

/-- `torch.cat(ts, dim=1)` (= `dim=-1`) on equally-tall 2-D tensors. -/
def catDim1 : List (List (List α)) → List (List α)
  | [] => []
  | [t] => t
  | t :: rest => List.zipWith (· ++ ·) t (catDim1 rest)

/-- `_deconstruct_combined_qkv(tensor, world_size)`, generic in the
tensor type `T` with `catLast` the `torch.cat(..., dim=-1)` of `T`. -/
def deconstructCombinedQkv [Inhabited T] (catLast : List T → T)
    (chunks : List T) (worldSize : Nat) : List T :=
  (pyZip ((List.range (ceilDivNat chunks.length worldSize)).map
    (fun i => (chunks.drop (i * worldSize)).take worldSize))).map catLast

/-- `torch.chunk(w, n, dim)` for `dim ∈ {0, 1}` on a 2-D tensor. -/
def chunkAtDim (dim : Nat) (m : Mat) (n : Nat) : List Mat :=
  if dim = 0 then torchChunk m n else torchChunkDim1 m n

/-- `torch.cat(ts, dim)` for `dim ∈ {0, 1}` on 2-D tensors. -/
def catAtDim (dim : Nat) (ts : List Mat) : Mat :=
  if dim = 0 then ts.flatten else catDim1 ts

/-- The weight branch of `_slice` (engine lines 61-66): chunk the
weight into `fusion_degree * world_size` pieces along `dim` (already
the post-`reversed` dimension), regroup through
`_deconstruct_combined_qkv` when `fusion_degree > 1`, and keep this
rank's piece. -/
def sliceWeight (w : Mat) (dim F W r : Nat) : Mat :=
  (if 1 < F then deconstructCombinedQkv catDim1 (chunkAtDim dim w (F * W)) W
   else chunkAtDim dim w (F * W)).getD r []

/-- The bias branch of `_slice` (engine lines 75-81): always chunked
along dim 0; `dim=-1` of a 1-D tensor is dim 0, so the fused regroup
concatenates with `cat0`. -/
def sliceBias (b : List Int) (F W r : Nat) : List Int :=
  (if 1 < F then deconstructCombinedQkv cat0 (torchChunk b (F * W)) W
   else torchChunk b (F * W)).getD r []

lemma getD_take_drop (l : List α) (a c j : Nat) (dflt : α)
    (hj : j < c) (hl : a + j < l.length) :
    ((l.drop a).take c).getD j dflt = l.getD (a + j) dflt := by
  have hlen1 : j < ((l.drop a).take c).length := by
    simp only [List.length_take, List.length_drop]
    omega
  rw [List.getD_eq_getElem _ _ hlen1, List.getD_eq_getElem _ _ hl]
  rw [List.getElem_take, List.getElem_drop]

lemma ceilDivNat_mul_self (F W : Nat) (hW : 0 < W) :
    ceilDivNat (F * W) W = F := by
  unfold ceilDivNat
  have h1 : F * W + W - 1 = W * F + (W - 1) := by
    rw [Nat.mul_comm]
    omega
  rw [h1, Nat.mul_add_div hW]
  have h2 : (W - 1) / W = 0 := Nat.div_eq_of_lt (by omega)
  omega

lemma ceilDivNat_of_dvd {n L : Nat} (hn : 0 < n) (hdvd : n ∣ L) :
    ceilDivNat L n = L / n := by
  obtain ⟨m, rfl⟩ := hdvd
  rw [Nat.mul_div_cancel_left m hn, Nat.mul_comm]
  exact ceilDivNat_mul_self m n hn

lemma torchChunk_length_of_dvd (l : List α) (n : Nat) (hn : 0 < n)
    (hdvd : n ∣ l.length) (hL : 0 < l.length) :
    (torchChunk l n).length = n := by
  rw [torchChunk_length]
  obtain ⟨m, hm⟩ := hdvd
  have hm0 : 0 < m := by
    rcases Nat.eq_zero_or_pos m with h | h
    · rw [h, Nat.mul_zero] at hm; omega
    · exact h
  have hc : ceilDivNat l.length n = m := by
    rw [hm, Nat.mul_comm]
    exact ceilDivNat_mul_self m n hn
  rw [hc, hm, ceilDivNat_mul_self n m hm0]

lemma foldl_min_const (W : Nat) (rest : List (List α))
    (hrest : ∀ g ∈ rest, g.length = W) :
    rest.foldl (fun a b => min a b.length) W = W := by
  induction rest with
  | nil => rfl
  | cons h t ih =>
      show t.foldl (fun a b => min a b.length) (min W h.length) = W
      rw [hrest h (List.mem_cons_self _ _), Nat.min_self]
      exact ih (fun x hx => hrest x (List.mem_cons_of_mem _ hx))

lemma minLen_const (ls : List (List α)) (W : Nat) (hne : ls ≠ [])
    (hall : ∀ g ∈ ls, g.length = W) : minLen ls = W := by
  match ls with
  | [] => exact absurd rfl hne
  | g :: rest =>
      show rest.foldl (fun a b => min a b.length) g.length = W
      rw [hall g (List.mem_cons_self _ _)]
      exact foldl_min_const W rest (fun x hx => hall x (List.mem_cons_of_mem _ hx))

lemma deconstructCombinedQkv_getD [Inhabited T] (catLast : List T → T)
    (chunks : List T) (F W r : Nat) (hF : 0 < F) (hW : 0 < W) (hr : r < W)
    (hlen : chunks.length = F * W) :
    (deconstructCombinedQkv catLast chunks W).getD r default =
      catLast ((List.range F).map (fun i => chunks.getD (i * W + r) default)) := by
  have hranks : ceilDivNat chunks.length W = F := by
    rw [hlen]; exact ceilDivNat_mul_self F W hW
  have hgrouplen : ∀ i, i < F → ((chunks.drop (i * W)).take W).length = W := by
    intro i hiF
    simp only [List.length_take, List.length_drop, hlen]
    have h2 : i * W + W = (i + 1) * W := by ring
    have h3 : (i + 1) * W ≤ F * W := Nat.mul_le_mul_right _ (by omega)
    omega
  have hne : ((List.range F).map (fun i => (chunks.drop (i * W)).take W)) ≠ [] := by
    simp only [ne_eq, List.map_eq_nil_iff, List.range_eq_nil]
    omega
  have hmin : minLen ((List.range F).map
      (fun i => (chunks.drop (i * W)).take W)) = W := by
    apply minLen_const _ _ hne
    intro g hg
    obtain ⟨i, hi, rfl⟩ := List.mem_map.mp hg
    exact hgrouplen i (List.mem_range.mp hi)
  unfold deconstructCombinedQkv pyZip
  rw [hranks, hmin, List.map_map]
  have hlen2 : r < ((List.range W).map (catLast ∘ fun j =>
      ((List.range F).map (fun i => (chunks.drop (i * W)).take W)).map
        (fun l => l.getD j default))).length := by
    simp only [List.length_map, List.length_range]
    exact hr
  rw [List.getD_eq_getElem _ _ hlen2]
  simp only [List.getElem_map, List.getElem_range, Function.comp_apply, List.map_map]
  congr 1
  apply List.map_congr_left
  intro i hi
  have hiF : i < F := List.mem_range.mp hi
  simp only [Function.comp_apply]
  apply getD_take_drop _ _ _ _ _ hr
  rw [hlen]
  have h2 : i * W + W = (i + 1) * W := by ring
  have h3 : (i + 1) * W ≤ F * W := Nat.mul_le_mul_right _ (by omega)
  omega

lemma torchChunkDim1_length (m : List (List α)) (n : Nat) :
    (torchChunkDim1 m n).length =
      ceilDivNat (dim1Width m) (ceilDivNat (dim1Width m) n) := by
  simp [torchChunkDim1]

lemma torchChunkDim1_length_of_dvd (m : List (List α)) (n : Nat) (hn : 0 < n)
    (hdvd : n ∣ dim1Width m) (hw : 0 < dim1Width m) :
    (torchChunkDim1 m n).length = n := by
  rw [torchChunkDim1_length]
  obtain ⟨k, hk⟩ := hdvd
  have hk0 : 0 < k := by
    rcases Nat.eq_zero_or_pos k with h | h
    · rw [h, Nat.mul_zero] at hk; omega
    · exact h
  have hc : ceilDivNat (dim1Width m) n = k := by
    rw [hk, Nat.mul_comm]
    exact ceilDivNat_mul_self k n hn
  rw [hc, hk, ceilDivNat_mul_self n k hk0]

/-- Claim C2, counterexample at the claim's own example: a `[12, 4]`
weight with fusion degree 3 and world size 2, sliced along dim 0.  The
code assigns rank 0 the chunks `{0, 2, 4}` but concatenates them along
`dim=-1` (dim 1 of the 2-D tensor), not along the slicing dimension:
rank 0's result is a `[2, 12]` tensor, not chunks 0, 2, 4 stacked into
`[6, 4]`. -/
theorem claim2_counterexample :
    sliceWeight
      [[0, 1, 2, 3], [4, 5, 6, 7], [8, 9, 10, 11], [12, 13, 14, 15],
       [16, 17, 18, 19], [20, 21, 22, 23], [24, 25, 26, 27], [28, 29, 30, 31],
       [32, 33, 34, 35], [36, 37, 38, 39], [40, 41, 42, 43], [44, 45, 46, 47]]
      0 3 2 0 ≠
    ((torchChunk
      [[0, 1, 2, 3], [4, 5, 6, 7], [8, 9, 10, 11], [12, 13, 14, 15],
       [16, 17, 18, 19], [20, 21, 22, 23], [24, 25, 26, 27], [28, 29, 30, 31],
       [32, 33, 34, 35], [36, 37, 38, 39], [40, 41, 42, 43], [44, 45, 46, 47]]
      6).getD 0 [] ++
     (torchChunk
      [[0, 1, 2, 3], [4, 5, 6, 7], [8, 9, 10, 11], [12, 13, 14, 15],
       [16, 17, 18, 19], [20, 21, 22, 23], [24, 25, 26, 27], [28, 29, 30, 31],
       [32, 33, 34, 35], [36, 37, 38, 39], [40, 41, 42, 43], [44, 45, 46, 47]]
      6).getD 2 [] ++
     (torchChunk
      [[0, 1, 2, 3], [4, 5, 6, 7], [8, 9, 10, 11], [12, 13, 14, 15],
       [16, 17, 18, 19], [20, 21, 22, 23], [24, 25, 26, 27], [28, 29, 30, 31],
       [32, 33, 34, 35], [36, 37, 38, 39], [40, 41, 42, 43], [44, 45, 46, 47]]
      6).getD 4 []) := by
  decide

/-- Claim C2 (amended): when the slicing dimension is the tensor's
LAST dimension (dim 1 of a 2-D weight, the fused/reversed layout the
engine uses for combined QKV), slicing with fusion degree `F` and world
size `W` splits the weight into `F*W` chunks along that dimension and
rank `r` receives exactly the chunks with indices congruent to `r`
modulo `W` (`r, W+r, ..., (F-1)W+r`), concatenated along the slicing
dimension; for dim-0 slicing the chunk assignment is the same but the
concatenation runs along dim 1 instead (see the counterexample). -/
theorem claim2_fused_slice (w : Mat) (F W r : Nat) (hF : 0 < F) (hW : 0 < W)
    (hr : r < W) (hdvd : (F * W) ∣ dim1Width w) (hwidth : 0 < dim1Width w) :
    sliceWeight w 1 F W r =
      catDim1 ((List.range F).map (fun k =>
        (torchChunkDim1 w (F * W)).getD (k * W + r) [])) := by
  have hFW : 0 < F * W := Nat.mul_pos hF hW
  have hlen : (torchChunkDim1 w (F * W)).length = F * W :=
    torchChunkDim1_length_of_dvd w (F * W) hFW hdvd hwidth
  have hchunk : chunkAtDim 1 w (F * W) = torchChunkDim1 w (F * W) := by
    unfold chunkAtDim
    rw [if_neg (by omega)]
  unfold sliceWeight
  rw [hchunk]
  by_cases hF1 : 1 < F
  · rw [if_pos hF1]
    exact deconstructCombinedQkv_getD catDim1 (torchChunkDim1 w (F * W))
      F W r hF hW hr hlen
  · have hFeq : F = 1 := by omega
    subst hFeq
    rw [if_neg (by omega)]
    have h01 : List.range 1 = [0] := by simp [List.range_succ]
    rw [h01, List.map_singleton]
    show _ = catDim1 [(torchChunkDim1 w (1 * W)).getD (0 * W + r) []]
    rw [Nat.zero_mul, Nat.zero_add]
    rfl

/-- Witness for claim C2's amended theorem: a `[2, 12]` weight sliced
along dim 1 with `F = 3`, `W = 2`, rank 0. -/
theorem claim2_witness :
    sliceWeight [[0, 1, 2, 3, 4, 5, 6, 7, 8, 9, 10, 11],
        [12, 13, 14, 15, 16, 17, 18, 19, 20, 21, 22, 23]] 1 3 2 0 =
      catDim1 ((List.range 3).map (fun k =>
        (torchChunkDim1 [[0, 1, 2, 3, 4, 5, 6, 7, 8, 9, 10, 11],
          [12, 13, 14, 15, 16, 17, 18, 19, 20, 21, 22, 23]] (3 * 2)).getD
            (k * 2 + 0) [])) :=
  claim2_fused_slice _ 3 2 0 (by decide) (by decide) (by decide)
    (by decide) (by decide)

/-! ### Modules, models, mapping tables, and the two engines

A module's dynamically patched integers (`update_module_arguments` in
`mappings.py`, absent from the sources: per its uses it assigns the
named attributes on the module) are modelled as record fields for the
fixed names the engines use (`in_features`, `out_features`, `nx`, `nf`,
`num_embeddings`, `reversed`, `fusion_degree`, `orig_module`,
`gather_output`) plus the open `attrs` bag for the mapping table's
rescale names.  `tp_rank` is set on the weight/bias tensors in the
source; here it is one field on the module.  Python's runtime class
swap (`module.__class__ = ...`) is the `cls` tag.  Weight aliasing of a
tied output head (`module.weight is embedding.weight`) is tracked by
the `sharesEmbeddingWeight` flag, with the tied module's own `weight`
left `none`; the tied loops in both engines touch only flags and
feature counts, never the alias, so no aliasing semantics is needed as
long as the mapping table does not also mark a tied module
column/row-parallel. -/

/-- The effective runtime class of a module (`module.__class__`). -/
inductive ModuleClass
  | plain
  | embeddingCls
  | vocabParallelEmbedding
  | columnParallelLinear
  | rowParallelLinear
deriving DecidableEq

/-- A module of the model graph. -/
structure TPModule where
  weight : Option Mat
  bias : Option (List Int)
  attrs : Attrs
  inFeatures : Nat := 0
  outFeatures : Nat := 0
  nx : Nat := 0
  nf : Nat := 0
  numEmbeddings : Nat := 0
  cls : ModuleClass := ModuleClass.plain
  origCls : Option ModuleClass := none
  gatherOutput : Bool := false
  reversedFlag : Bool := false
  fusionDegree : Nat := 1
  sharesEmbeddingWeight : Bool := false
  tpRank : Option Nat := none
deriving DecidableEq

instance : Inhabited TPModule := ⟨{ weight := none, bias := none, attrs := [] }⟩

/-- The model: presence of the `get_input_embeddings()` accessor, the
input embedding module, and the other named submodules. -/
structure Model where
  hasInputEmbeddings : Bool
  embedding : TPModule
  modules : List (String × TPModule)
deriving DecidableEq

instance : Inhabited Model :=
  ⟨{ hasInputEmbeddings := false, embedding := default, modules := [] }⟩

/-- Modelled from the spec: the Mapping Resolver contract of §4.1
(`TensorParallelMapping` lives in `mappings.py`, which is not among the
sources).  The mapping table is external data classifying each
qualified module name as column/row-parallel, reversed, fused, and
naming the config attributes to rescale. -/
structure TPMapping where
  isColumnParallel : String → Bool
  isRowParallel : String → Bool
  isReversedParam : String → Bool
  combinedQkvDegree : String → Nat
  updateAttrs : List String

/-- `_update_mp_arguments` of `TensorParallelEngine1D` over every
module of the model (`self.model.modules()` yields the embedding too). -/
def updateMPArgumentsDown (mp : TPMapping) (W : Nat) (m : Model) : Model :=
  { m with
    embedding := { m.embedding with
      attrs := (applyUpdateAttrs (fun v => parallelRescaleAttr v W)
        mp.updateAttrs m.embedding.attrs) }
    modules := m.modules.map (fun p =>
      (p.1, { p.2 with attrs := (applyUpdateAttrs (fun v => parallelRescaleAttr v W)
        mp.updateAttrs p.2.attrs) })) }

/-- `_update_mp_arguments` of `TensorDeparallelEngine1D`. -/
def updateMPArgumentsUp (mp : TPMapping) (W : Nat) (m : Model) : Model :=
  { m with
    embedding := { m.embedding with
      attrs := (applyUpdateAttrs (fun v => deparallelRescaleAttr v W)
        mp.updateAttrs m.embedding.attrs) }
    modules := m.modules.map (fun p =>
      (p.1, { p.2 with attrs := (applyUpdateAttrs (fun v => deparallelRescaleAttr v W)
        mp.updateAttrs p.2.attrs) })) }

/-- The `update_module_arguments(reversed, fusion_degree, orig_module,
gather_output=False)` call at the top of `_slice`. -/
def sliceModuleTagged (mod : TPModule) (rev : Bool) (F : Nat) : TPModule :=
  { mod with
    reversedFlag := rev
    fusionDegree := F
    origCls := some mod.cls
    gatherOutput := false }

/-- The weight branch of `_slice` on the module: replace the weight by
this rank's slice, tag the tensor's rank, and set
`in_features`/`out_features` from the new weight's sizes 0 and 1. -/
def sliceModuleWeight (mod : TPModule) (dim2 F W r : Nat) : TPModule :=
  match mod.weight with
  | none => mod
  | some w =>
      { mod with
        weight := some (sliceWeight w dim2 F W r)
        tpRank := some r
        inFeatures := (sliceWeight w dim2 F W r).length
        outFeatures := dim1Width (sliceWeight w dim2 F W r) }

/-- The bias branch of `_slice`. -/
def sliceModuleBias (mod : TPModule) (F : Nat) (sliceBiasFlag : Bool) (W r : Nat) :
    TPModule :=
  match mod.bias with
  | none => mod
  | some b =>
      if sliceBiasFlag then
        { mod with
          bias := some (sliceBias b F W r)
          tpRank := some r }
      else { mod with tpRank := some r }

/-- `_slice(module, reversed, fusion_degree, slice_bias, dim)` (engine
lines 40-85); `abs(dim - 1)` flips dim 0 and dim 1. -/
def sliceModule (mod : TPModule) (rev : Bool) (F : Nat) (sliceBiasFlag : Bool)
    (dim W r : Nat) : TPModule :=
  sliceModuleBias
    (sliceModuleWeight (sliceModuleTagged mod rev F) (if rev then 1 - dim else dim) F W r)
    F sliceBiasFlag W r

/-- `_parallelize_modules`: column targets are `_column_slice`d
(dim 0, bias sliced, mapped fusion degree) and become
`ColumnParallelLinear`; row targets are `_row_slice`d (dim 1, bias
kept, fusion degree 1) and become `RowParallelLinear`. -/
def parallelizeModulesStep (mp : TPMapping) (W r : Nat) (m : Model) : Model :=
  { m with modules := m.modules.map (fun p =>
      if mp.isColumnParallel p.1 then
        (p.1, { sliceModule p.2 (mp.isReversedParam p.1)
            (mp.combinedQkvDegree p.1) true 0 W r with
          cls := ModuleClass.columnParallelLinear })
      else if mp.isRowParallel p.1 then
        (p.1, { sliceModule p.2 (mp.isReversedParam p.1) 1 false 1 W r with
          cls := ModuleClass.rowParallelLinear })
      else p) }

/-- `_parallelize_embedding` minus its leading assert: chunk the
embedding weight along dim 0 and keep this rank's chunk, swap in
`VocabParallelEmbedding`, and convert every non-embedding module whose
weight is the embedding weight into a `ColumnParallelLinear` with
`fusion_degree=1`, `gather_output=True`. -/
def parallelizeEmbeddingStep (mp : TPMapping) (W r : Nat) (m : Model) : Model :=
  { m with
    embedding := { m.embedding with
      weight := m.embedding.weight.map (fun w => shardWeight w W r)
      tpRank := some r
      origCls := some m.embedding.cls
      cls := ModuleClass.vocabParallelEmbedding }
    modules := m.modules.map (fun p =>
      if p.2.sharesEmbeddingWeight &&
          !(p.2.cls == ModuleClass.embeddingCls) &&
          !(p.2.cls == ModuleClass.vocabParallelEmbedding) then
        (p.1, { p.2 with
          reversedFlag := mp.isReversedParam p.1
          fusionDegree := 1
          origCls := some p.2.cls
          gatherOutput := true
          cls := ModuleClass.columnParallelLinear })
      else p) }

/-- `TensorParallelEngine1D.parallelize` for rank `r`: rescale the
config integers, then `_parallelize_embedding`, whose first statement
asserts the accessor — so a model without `get_input_embeddings`
raises only after `_update_mp_arguments` has mutated the model.
`_postprocess` only tags tensor ranks already recorded here.  Returns
the model state when the call finishes (normally or by the assert)
and the error, if any. -/
def parallelizeModel (mp : TPMapping) (W r : Nat) (m : Model) : Model × Option String :=
  if (updateMPArgumentsDown mp W m).hasInputEmbeddings then
    (parallelizeModulesStep mp W r
      (parallelizeEmbeddingStep mp W r (updateMPArgumentsDown mp W m)), none)
  else
    (updateMPArgumentsDown mp W m,
      some "model must have method named get_input_embeddings().")

/-! ### Claim C3: the assert fires only after config mutation -/

/-- A model without `get_input_embeddings` but with a module carrying a
rescalable attribute. -/
def c3Model : Model :=
  { hasInputEmbeddings := false,
    embedding := { weight := none, bias := none, attrs := [] },
    modules := [("h", { weight := none, bias := none, attrs := [("n_head", 4)] })] }

/-- A mapping table whose rescale list names that attribute. -/
def c3Mapping : TPMapping :=
  { isColumnParallel := fun _ => false,
    isRowParallel := fun _ => false,
    isReversedParam := fun _ => false,
    combinedQkvDegree := fun _ => 1,
    updateAttrs := ["n_head"] }

/-- Claim C3: evaluating `parallelize` at a model lacking
`get_input_embeddings` with world size 2 shows the configuration error
is raised, but only after `_update_mp_arguments` has already rescaled
the module's `n_head` from 4 to 2 — the model is mutated when the
error surfaces, contradicting the claim (and §7 of the spec, which the
code violates: `parallelize` runs `_update_mp_arguments()` before
`_parallelize_embedding()`'s assert). -/
theorem claim3_mutation_before_error :
    (parallelizeModel c3Mapping 2 0 c3Model).2 =
      some "model must have method named get_input_embeddings()." ∧
    getAttr ((parallelizeModel c3Mapping 2 0 c3Model).1.modules.getD 0
      ("", default)).2.attrs "n_head" = some 2 ∧
    getAttr (c3Model.modules.getD 0 ("", default)).2.attrs "n_head" = some 4 := by
  decide

/-! ### Weight merging: `_merge` and `_reconstruct_combined_qkv` -/

/-- `_reconstruct_combined_qkv(tensors, fusion_degree, dim)` on 2-D
tensors: split every gathered rank tensor into `fusion_degree` chunks
along `dim`, regroup chunk `i` of every rank into logical slot `i`
(insertion order of the result dict is `0..F-1`), concatenate within
each slot and then across slots, all along `dim`. -/
def reconstructCombinedQkv2 (tensors : List Mat) (F dim : Nat) : Mat :=
  catAtDim dim ((List.range F).map (fun i =>
    catAtDim dim (tensors.map (fun t => (chunkAtDim dim t F).getD i []))))

/-- `_reconstruct_combined_qkv` on 1-D (bias) tensors; `_merge` passes
dim 0 for the bias. -/
def reconstructCombinedQkv1 (tensors : List (List Int)) (F : Nat) : List Int :=
  cat0 ((List.range F).map (fun i =>
    cat0 (tensors.map (fun t => (torchChunk t F).getD i []))))

/-- The weight combination in `_merge`: reconstructed when fused,
otherwise the gathered chunks concatenated along `dim` in rank order. -/
def mergeWeight (tensors : List Mat) (F dim : Nat) : Mat :=
  if 1 < F then reconstructCombinedQkv2 tensors F dim else catAtDim dim tensors

/-- The bias combination in `_merge`. -/
def mergeBiasTensors (tensors : List (List Int)) (F : Nat) : List Int :=
  if 1 < F then reconstructCombinedQkv1 tensors F else cat0 tensors

/-- The weight branch of `_merge`: `dist.all_gather` fills
`tensor_list` with every rank's weight in rank order (the
`.contiguous()`/`.cuda()` moves are value no-ops); the merged output
replaces the weight, and `in_features`, `out_features`, `nx`, `nf` are
set from its sizes 0 and 1. -/
def mergeModuleWeight (mod : TPModule) (gathered : List Mat) (F dim2 : Nat) :
    TPModule :=
  match mod.weight with
  | none => mod
  | some _ =>
      { mod with
        weight := some (mergeWeight gathered F dim2)
        inFeatures := (mergeWeight gathered F dim2).length
        outFeatures := dim1Width (mergeWeight gathered F dim2)
        nx := (mergeWeight gathered F dim2).length
        nf := dim1Width (mergeWeight gathered F dim2) }

/-- The bias branch of `_merge`. -/
def mergeModuleBias (mod : TPModule) (gathered : List (List Int)) (F : Nat)
    (mergeBiasFlag : Bool) : TPModule :=
  match mod.bias with
  | none => mod
  | some _ =>
      if mergeBiasFlag then
        { mod with bias := some (mergeBiasTensors gathered F) }
      else mod

/-- `_merge(module, reversed, fusion_degree, merge_bias, dim)`:
`mod` is the local module mutated in place (on the deparallelize path
it has already been up-rescaled by `_update_mp_arguments`), and `mods`
are the per-rank modules whose weight/bias tensors the two
`dist.all_gather` calls collect in rank order. -/
def mergeModule (mod : TPModule) (mods : List TPModule) (rev : Bool) (F : Nat)
    (mergeBiasFlag : Bool) (dim : Nat) : TPModule :=
  mergeModuleBias
    (mergeModuleWeight mod
      (mods.map (fun mr => mr.weight.getD []))
      F (if rev then 1 - dim else dim))
    (mods.map (fun mr => mr.bias.getD []))
    F mergeBiasFlag

/-! ### Claim C8: feature counts after slice and merge -/

/-- The input-feature dimension of a weight under its layout: reversed
(transposed) layouts store `[in, out]`, plain linear layouts store
`[out, in]`. -/
def inputFeatureDim (w : Mat) (rev : Bool) : Nat :=
  if rev then w.length else dim1Width w

/-- The output-feature dimension of a weight under its layout. -/
def outputFeatureDim (w : Mat) (rev : Bool) : Nat :=
  if rev then dim1Width w else w.length

/-- Claim C8, counterexample: a non-reversed `[6, 2]` weight,
column-sliced with `W = 2`: the shard is `[3, 2]`, but `_slice` sets
`in_features = weight.size(0) = 3` while the input-feature dimension
of a non-reversed weight is its size 1, namely 2. -/
theorem claim8_counterexample :
    (sliceModule
        { weight := some [[1, 2], [3, 4], [5, 6], [7, 8], [9, 10], [11, 12]],
          bias := none, attrs := [] } false 1 true 0 2 0).inFeatures ≠
      inputFeatureDim
        ((sliceModule
          { weight := some [[1, 2], [3, 4], [5, 6], [7, 8], [9, 10], [11, 12]],
            bias := none, attrs := [] } false 1 true 0 2 0).weight.getD [])
        (sliceModule
          { weight := some [[1, 2], [3, 4], [5, 6], [7, 8], [9, 10], [11, 12]],
            bias := none, attrs := [] } false 1 true 0 2 0).reversedFlag := by
  decide

/-- Claim C8 (amended): after slicing (and after merging), whenever the
module has a weight, `in_features` equals the current weight's size 0
and `out_features` its size 1; these coincide with the input- and
output-feature dimensions exactly for reversed layouts (`[in, out]`),
and are swapped for non-reversed layouts (see the counterexample). -/
theorem claim8_feature_counts (mod : TPModule) (rev : Bool) (F : Nat) (sb : Bool)
    (dim W r : Nat) (w : Mat) (hw : mod.weight = some w)
    (mods : List TPModule) (revm : Bool) (Fm : Nat) (mb : Bool) (dimm : Nat)
    (w0 : Mat) (hw0 : (mods.headD default).weight = some w0) :
    ((sliceModule mod rev F sb dim W r).inFeatures =
        ((sliceModule mod rev F sb dim W r).weight.getD []).length ∧
      (sliceModule mod rev F sb dim W r).outFeatures =
        dim1Width ((sliceModule mod rev F sb dim W r).weight.getD []) ∧
      (rev = true →
        (sliceModule mod rev F sb dim W r).inFeatures =
          inputFeatureDim ((sliceModule mod rev F sb dim W r).weight.getD [])
            (sliceModule mod rev F sb dim W r).reversedFlag ∧
        (sliceModule mod rev F sb dim W r).outFeatures =
          outputFeatureDim ((sliceModule mod rev F sb dim W r).weight.getD [])
            (sliceModule mod rev F sb dim W r).reversedFlag)) ∧
    ((mergeModule (mods.headD default) mods revm Fm mb dimm).inFeatures =
        ((mergeModule (mods.headD default) mods revm Fm mb dimm).weight.getD []).length ∧
      (mergeModule (mods.headD default) mods revm Fm mb dimm).outFeatures =
        dim1Width ((mergeModule (mods.headD default) mods revm Fm mb dimm).weight.getD []) ∧
      (revm = true → (mods.headD default).reversedFlag = true →
        (mergeModule (mods.headD default) mods revm Fm mb dimm).inFeatures =
          inputFeatureDim ((mergeModule (mods.headD default) mods revm Fm mb dimm).weight.getD [])
            (mergeModule (mods.headD default) mods revm Fm mb dimm).reversedFlag ∧
        (mergeModule (mods.headD default) mods revm Fm mb dimm).outFeatures =
          outputFeatureDim ((mergeModule (mods.headD default) mods revm Fm mb dimm).weight.getD [])
            (mergeModule (mods.headD default) mods revm Fm mb dimm).reversedFlag)) := by
  constructor
  · cases hb : mod.bias with
    | none =>
        cases rev <;>
          simp [sliceModule, sliceModuleBias, sliceModuleWeight, sliceModuleTagged,
            hw, hb, inputFeatureDim, outputFeatureDim]
    | some b =>
        cases rev <;> cases sb <;>
          simp [sliceModule, sliceModuleBias, sliceModuleWeight, sliceModuleTagged,
            hw, hb, inputFeatureDim, outputFeatureDim]
  · rw [List.headD_eq_head?_getD] at hw0
    cases hb : (mods.head?.getD default).bias with
    | none =>
        cases hrev : (mods.head?.getD default).reversedFlag <;>
          simp [mergeModule, mergeModuleBias, mergeModuleWeight, hw0, hb, hrev,
            inputFeatureDim, outputFeatureDim]
    | some b =>
        cases hrev : (mods.head?.getD default).reversedFlag <;> cases mb <;>
          simp [mergeModule, mergeModuleBias, mergeModuleWeight, hw0, hb, hrev,
            inputFeatureDim, outputFeatureDim]

/-- A reversed `[2, 4]` module for the claim C8 witness. -/
def c8SliceMod : TPModule :=
  { weight := some [[1, 2, 3, 4], [5, 6, 7, 8]]
    bias := none
    attrs := []
    reversedFlag := true }

/-- Two per-rank `[2, 2]` shard modules for the claim C8 witness. -/
def c8Mods : List TPModule :=
  [{ weight := some [[1, 2], [5, 6]]
     bias := none
     attrs := []
     reversedFlag := true },
    { weight := some [[3, 4], [7, 8]]
      bias := none
      attrs := []
      reversedFlag := true }]

/-- Witness for claim C8's amended theorem: a reversed `[2, 4]` weight
sliced at `W = 2`, and a merge of two `[2, 2]` shards. -/
theorem claim8_witness :
    ((sliceModule c8SliceMod true 1 true 0 2 0).inFeatures =
        ((sliceModule c8SliceMod true 1 true 0 2 0).weight.getD []).length ∧
      (sliceModule c8SliceMod true 1 true 0 2 0).outFeatures =
        dim1Width ((sliceModule c8SliceMod true 1 true 0 2 0).weight.getD []) ∧
      (true = true →
        (sliceModule c8SliceMod true 1 true 0 2 0).inFeatures =
          inputFeatureDim ((sliceModule c8SliceMod true 1 true 0 2 0).weight.getD [])
            (sliceModule c8SliceMod true 1 true 0 2 0).reversedFlag ∧
        (sliceModule c8SliceMod true 1 true 0 2 0).outFeatures =
          outputFeatureDim ((sliceModule c8SliceMod true 1 true 0 2 0).weight.getD [])
            (sliceModule c8SliceMod true 1 true 0 2 0).reversedFlag)) ∧
    ((mergeModule (c8Mods.headD default) c8Mods true 1 true 0).inFeatures =
        ((mergeModule (c8Mods.headD default) c8Mods true 1 true 0).weight.getD []).length ∧
      (mergeModule (c8Mods.headD default) c8Mods true 1 true 0).outFeatures =
        dim1Width ((mergeModule (c8Mods.headD default) c8Mods true 1 true 0).weight.getD []) ∧
      (true = true → (c8Mods.headD default).reversedFlag = true →
        (mergeModule (c8Mods.headD default) c8Mods true 1 true 0).inFeatures =
          inputFeatureDim ((mergeModule (c8Mods.headD default) c8Mods true 1 true 0).weight.getD [])
            (mergeModule (c8Mods.headD default) c8Mods true 1 true 0).reversedFlag ∧
        (mergeModule (c8Mods.headD default) c8Mods true 1 true 0).outFeatures =
          outputFeatureDim ((mergeModule (c8Mods.headD default) c8Mods true 1 true 0).weight.getD [])
            (mergeModule (c8Mods.headD default) c8Mods true 1 true 0).reversedFlag)) :=
  claim8_feature_counts c8SliceMod true 1 true 0 2 0
    [[1, 2, 3, 4], [5, 6, 7, 8]] rfl c8Mods true 1 true 0 [[1, 2], [5, 6]] rfl

/-! ### Claim C9: tied output heads -/

/-- Dot product of two equally-long integer rows. -/
def dotRow (a b : List Int) : Int := (List.zipWith (· * ·) a b).sum

/-- `torch.matmul(inputs, w.t())`: entry `(i, j)` is the dot product
of input row `i` with weight row `j` (the non-`reversed` branch of
`ColumnParallelLinear.forward`). -/
def matmulT (inputs w : Mat) : Mat :=
  inputs.map (fun x => w.map (fun wrow => dotRow x wrow))

/-- `ColumnParallelLinear.forward` of the tied head, simulated across
ranks with `gather_output=True` and no bias: `mpu.broadcast` makes the
same `inputs` visible on every rank (identity in value space), each
rank computes `inputs @ shard.t()` against its shard of the embedding
weight (the head is not `reversed`), and `mpu.gather` concatenates the
per-rank outputs along the last (output-feature) dimension. -/
def columnParallelForwardGather (table : Mat) (W : Nat) (inputs : Mat) : Mat :=
  catDim1 ((List.range W).map (fun r => matmulT inputs (shardWeight table W r)))

lemma map_range_getD (l : List α) (dflt : α) :
    (List.range l.length).map (fun i => l.getD i dflt) = l := by
  apply List.ext_getElem
  · simp
  · intro i h1 h2
    simp only [List.getElem_map, List.getElem_range]
    exact List.getD_eq_getElem l dflt h2

lemma flatten_pieces (l : List α) (c k : Nat) (hcov : l.length ≤ k * c) :
    ((List.range k).map (fun i => (l.drop (i * c)).take c)).flatten = l := by
  induction k generalizing l with
  | zero =>
      have : l = [] := List.eq_nil_of_length_eq_zero (by omega)
      subst this
      rfl
  | succ k ih =>
      rw [List.range_succ_eq_map, List.map_cons, List.map_map, List.flatten_cons]
      have hhead : (l.drop (0 * c)).take c = l.take c := by
        rw [Nat.zero_mul, List.drop_zero]
      rw [hhead]
      have htail : ((List.range k).map
          ((fun i => (l.drop (i * c)).take c) ∘ Nat.succ)).flatten = l.drop c := by
        have hmap : (List.range k).map ((fun i => (l.drop (i * c)).take c) ∘ Nat.succ) =
            (List.range k).map (fun i => ((l.drop c).drop (i * c)).take c) := by
          apply List.map_congr_left
          intro i _
          simp only [Function.comp_apply]
          have harg : Nat.succ i * c = c + i * c := by
            rw [Nat.succ_mul, Nat.add_comm]
          rw [harg, List.drop_drop]
        rw [hmap]
        apply ih
        have hexp : (k + 1) * c = k * c + c := by ring
        simp only [List.length_drop]
        omega
      rw [htail, List.take_append_drop]

lemma torchChunk_flatten (l : List α) (n : Nat) (hn : 0 < n) :
    (torchChunk l n).flatten = l := by
  rcases Nat.eq_zero_or_pos l.length with hL | hL
  · have : l = [] := List.eq_nil_of_length_eq_zero hL
    subst this
    rw [torchChunk_nil]
    rfl
  · have hc : 0 < ceilDivNat l.length n := ceilDivNat_pos hn hL
    unfold torchChunk
    apply flatten_pieces
    have h1 := le_mul_ceilDivNat hc l.length
    rw [Nat.mul_comm] at h1
    exact h1

lemma torchChunk_length_le (l : List α) (n : Nat) (hn : 0 < n) (hL : 0 < l.length) :
    (torchChunk l n).length ≤ n := by
  rw [torchChunk_length]
  have hc : 0 < ceilDivNat l.length n := ceilDivNat_pos hn hL
  rw [ceilDivNat_le_iff hc]
  have h1 := le_mul_ceilDivNat hn l.length
  rw [Nat.mul_comm] at h1
  exact h1

lemma torchChunk_length_exact (l : List α) (n : Nat) (hn : 0 < n)
    (hcond : (n - 1) * ceilDivNat l.length n < l.length) :
    (torchChunk l n).length = n := by
  have hL : 0 < l.length := by omega
  have h1 := (torchChunk_count_iff l n hn hL).mpr hcond
  have h2 := torchChunk_length_le l n hn hL
  omega

lemma catDim1_nil_all (ts : List Mat) (hall : ∀ t ∈ ts, t = []) :
    catDim1 ts = [] := by
  induction ts with
  | nil => rfl
  | cons t rest ih =>
      cases rest with
      | nil => exact hall t (List.mem_cons_self _ _)
      | cons t2 rest2 =>
          show List.zipWith _ t (catDim1 (t2 :: rest2)) = []
          rw [hall t (List.mem_cons_self _ _)]
          rfl

lemma catDim1_row_length (wd : Mat → Nat) (ts : List Mat)
    (hw : ∀ t ∈ ts, ∀ row ∈ t, row.length = wd t) :
    ∀ row ∈ catDim1 ts, row.length = (ts.map wd).sum := by
  induction ts with
  | nil => intro row hrow; exact absurd hrow (List.not_mem_nil row)
  | cons t rest ih =>
      cases rest with
      | nil =>
          intro row hrow
          have := hw t (List.mem_cons_self _ _) row hrow
          simp [this]
      | cons t2 rest2 =>
          intro row hrow
          have hrow2 : row ∈ List.zipWith (· ++ ·) t (catDim1 (t2 :: rest2)) := hrow
          rw [List.mem_iff_getElem] at hrow2
          obtain ⟨i, hilen, heq⟩ := hrow2
          rw [List.getElem_zipWith] at heq
          have hlen2 : i < (catDim1 (t2 :: rest2)).length := by
            rw [List.length_zipWith] at hilen
            omega
          have hlen1 : i < t.length := by
            rw [List.length_zipWith] at hilen
            omega
          have hmem1 : t[i] ∈ t := List.getElem_mem _
          have hmem2 : (catDim1 (t2 :: rest2))[i] ∈ catDim1 (t2 :: rest2) :=
            List.getElem_mem _
          have h1 := hw t (List.mem_cons_self _ _) _ hmem1
          have h2 := ih (fun u hu => hw u (List.mem_cons_of_mem _ hu)) _ hmem2
          rw [← heq, List.length_append, h1, h2]
          simp

/-- Claim C9: after `_parallelize_embedding`, every module other than
an `Embedding`/`VocabParallelEmbedding` whose weight is the very same
tensor as the input embedding's weight is converted to
`ColumnParallelLinear` with `fusion_degree = 1` and
`gather_output = True`, and its gathered forward output spans the full
vocabulary width: every output row has length `V`. -/
theorem claim9_tied_head (mp : TPMapping) (W r : Nat) (m : Model) (idx : Nat)
    (table : Mat) (inputs : Mat) (hW : 0 < W)
    (hidx : idx < m.modules.length)
    (htied : ((m.modules.getD idx ("", default)).2).sharesEmbeddingWeight = true)
    (hcls1 : ((m.modules.getD idx ("", default)).2).cls ≠ ModuleClass.embeddingCls)
    (hcls2 : ((m.modules.getD idx ("", default)).2).cls ≠
      ModuleClass.vocabParallelEmbedding)
    (hcond : (W - 1) * ceilDivNat table.length W < table.length) :
    ((parallelizeEmbeddingStep mp W r m).modules.getD idx ("", default)).2.cls =
        ModuleClass.columnParallelLinear ∧
    ((parallelizeEmbeddingStep mp W r m).modules.getD idx ("", default)).2.fusionDegree
        = 1 ∧
    ((parallelizeEmbeddingStep mp W r m).modules.getD idx ("", default)).2.gatherOutput
        = true ∧
    (∀ row ∈ columnParallelForwardGather table W inputs, row.length = table.length) := by
  have hgetD : (parallelizeEmbeddingStep mp W r m).modules.getD idx ("", default) =
      (fun p => if p.2.sharesEmbeddingWeight &&
            !(p.2.cls == ModuleClass.embeddingCls) &&
            !(p.2.cls == ModuleClass.vocabParallelEmbedding) then
          (p.1, { p.2 with
            reversedFlag := mp.isReversedParam p.1
            fusionDegree := 1
            origCls := some p.2.cls
            gatherOutput := true
            cls := ModuleClass.columnParallelLinear })
        else p) (m.modules.getD idx ("", default)) := by
    unfold parallelizeEmbeddingStep
    simp only
    rw [List.getD_eq_getElem _ _ (by simpa using hidx), List.getElem_map,
      List.getD_eq_getElem _ _ hidx]
  have hcond2 : ((m.modules.getD idx ("", default)).2.sharesEmbeddingWeight &&
      !((m.modules.getD idx ("", default)).2.cls == ModuleClass.embeddingCls) &&
      !((m.modules.getD idx ("", default)).2.cls ==
        ModuleClass.vocabParallelEmbedding)) = true := by
    rw [htied]
    have h1 : ((m.modules.getD idx ("", default)).2.cls ==
        ModuleClass.embeddingCls) = false := by
      exact beq_eq_false_iff_ne.mpr hcls1
    have h2 : ((m.modules.getD idx ("", default)).2.cls ==
        ModuleClass.vocabParallelEmbedding) = false := by
      exact beq_eq_false_iff_ne.mpr hcls2
    rw [h1, h2]
    rfl
  rw [hgetD]
  simp only [hcond2, if_true]
  refine ⟨trivial, trivial, trivial, ?_⟩
  -- the forward after gather has full vocabulary width
  intro row hrow
  have hV : 0 < table.length := by omega
  have hWlen : (torchChunk table W).length = W := torchChunk_length_exact table W hW hcond
  cases inputs with
  | nil =>
      exfalso
      have hempty : catDim1 ((List.range W).map
          (fun r => matmulT ([] : Mat) (shardWeight table W r))) = [] := by
        apply catDim1_nil_all
        intro t ht
        obtain ⟨s, _, rfl⟩ := List.mem_map.mp ht
        rfl
      unfold columnParallelForwardGather at hrow
      rw [hempty] at hrow
      exact List.not_mem_nil row hrow
  | cons x0 xs =>
      unfold columnParallelForwardGather at hrow
      have hlen := catDim1_row_length (fun t => dim1Width t)
        ((List.range W).map (fun s => matmulT (x0 :: xs) (shardWeight table W s)))
        ?_ row hrow
      · rw [hlen]
        have hmm : ((List.range W).map
            (fun s => matmulT (x0 :: xs) (shardWeight table W s))).map
              (fun t => dim1Width t) =
            (List.range W).map (fun s => (shardWeight table W s).length) := by
          rw [List.map_map]
          apply List.map_congr_left
          intro s _
          simp only [Function.comp_apply]
          simp [matmulT, dim1Width]
        rw [hmm]
        have hchunks : (List.range W).map (fun s => shardWeight table W s) =
            torchChunk table W := by
          have h1 := map_range_getD (torchChunk table W) ([] : Mat)
          rw [hWlen] at h1
          unfold shardWeight
          exact h1
        have hsum : ((List.range W).map
            (fun s => (shardWeight table W s).length)).sum = table.length := by
          have h1 : (List.range W).map (fun s => (shardWeight table W s).length) =
              ((List.range W).map (fun s => shardWeight table W s)).map
                List.length := by
            rw [List.map_map]
            rfl
          rw [h1, hchunks, ← List.length_flatten, torchChunk_flatten table W hW]
        exact hsum
      · intro t ht row2 hrow2
        obtain ⟨s, _, rfl⟩ := List.mem_map.mp ht
        unfold matmulT at hrow2
        obtain ⟨x, _, rfl⟩ := List.mem_map.mp hrow2
        simp [matmulT, dim1Width]

/-- Witness for claim C9: a model with one tied head over a 4-row
table, `W = 2`, rank 0, with a one-row input batch. -/
theorem claim9_witness :
    ((parallelizeEmbeddingStep
        { isColumnParallel := fun _ => false
          isRowParallel := fun _ => false
          isReversedParam := fun _ => false
          combinedQkvDegree := fun _ => 1
          updateAttrs := [] } 2 0
        { hasInputEmbeddings := true
          embedding :=
            { weight := some [[1, 0], [0, 1], [2, 3], [4, 5]]
              bias := none
              attrs := [] }
          modules := [("lm_head",
            { weight := none
              bias := none
              attrs := []
              sharesEmbeddingWeight := true })] }).modules.getD 0
        ("", default)).2.cls = ModuleClass.columnParallelLinear ∧
    ((parallelizeEmbeddingStep
        { isColumnParallel := fun _ => false
          isRowParallel := fun _ => false
          isReversedParam := fun _ => false
          combinedQkvDegree := fun _ => 1
          updateAttrs := [] } 2 0
        { hasInputEmbeddings := true
          embedding :=
            { weight := some [[1, 0], [0, 1], [2, 3], [4, 5]]
              bias := none
              attrs := [] }
          modules := [("lm_head",
            { weight := none
              bias := none
              attrs := []
              sharesEmbeddingWeight := true })] }).modules.getD 0
        ("", default)).2.fusionDegree = 1 ∧
    ((parallelizeEmbeddingStep
        { isColumnParallel := fun _ => false
          isRowParallel := fun _ => false
          isReversedParam := fun _ => false
          combinedQkvDegree := fun _ => 1
          updateAttrs := [] } 2 0
        { hasInputEmbeddings := true
          embedding :=
            { weight := some [[1, 0], [0, 1], [2, 3], [4, 5]]
              bias := none
              attrs := [] }
          modules := [("lm_head",
            { weight := none
              bias := none
              attrs := []
              sharesEmbeddingWeight := true })] }).modules.getD 0
        ("", default)).2.gatherOutput = true ∧
    (∀ row ∈ columnParallelForwardGather [[1, 0], [0, 1], [2, 3], [4, 5]] 2 [[7, 9]],
      row.length = ([[1, 0], [0, 1], [2, 3], [4, 5]] : Mat).length) :=
  claim9_tied_head
    { isColumnParallel := fun _ => false
      isRowParallel := fun _ => false
      isReversedParam := fun _ => false
      combinedQkvDegree := fun _ => 1
      updateAttrs := [] } 2 0
    { hasInputEmbeddings := true
      embedding :=
        { weight := some [[1, 0], [0, 1], [2, 3], [4, 5]]
          bias := none
          attrs := [] }
      modules := [("lm_head",
        { weight := none
          bias := none
          attrs := []
          sharesEmbeddingWeight := true })] } 0
    [[1, 0], [0, 1], [2, 3], [4, 5]] [[7, 9]]
    (by decide) (by decide) (by decide) (by decide) (by decide) (by decide)

/-! ### The deparallelize engine -/

/-- `if hasattr(module, "orig_module"): module.__class__ = module.orig_module`. -/
def restoreOrigCls (mod : TPModule) : TPModule :=
  match mod.origCls with
  | some c => { mod with cls := c }
  | none => mod

/-- One position's per-rank modules, as the all-gather sees them (all
ranks execute the same traversal, so position `idx` names the same
module on every rank). -/
def gatherModules (rankModels : List Model) (idx : Nat) : List TPModule :=
  rankModels.map (fun mr => (mr.modules.getD idx ("", default)).2)

/-- The body of `_deparallelize_modules` for one named module: column
targets are `_column_merge`d (dim 0, bias merged), row targets
`_row_merge`d (dim 1, bias kept), both with the module's stored
`fusion_degree` and `reversed`, and their original class restored. -/
def deparallelizeOneModule (mp : TPMapping) (rankModels : List Model) (idx : Nat)
    (p : String × TPModule) : String × TPModule :=
  if mp.isColumnParallel p.1 then
    (p.1, restoreOrigCls (mergeModule p.2 (gatherModules rankModels idx)
      p.2.reversedFlag p.2.fusionDegree true 0))
  else if mp.isRowParallel p.1 then
    (p.1, restoreOrigCls (mergeModule p.2 (gatherModules rankModels idx)
      p.2.reversedFlag p.2.fusionDegree false 1))
  else p

/-- `_deparallelize_modules` over the module traversal (indexed so the
collective pairs the same position across ranks). -/
def deparallelizeModulesStep (mp : TPMapping) (rankModels : List Model)
    (m : Model) : Model :=
  { m with modules := (List.range m.modules.length).map (fun idx =>
      deparallelizeOneModule mp rankModels idx (m.modules.getD idx ("", default))) }

/-- The full embedding table regathered by `mpu._gather(., dim=0)`:
the per-rank chunks concatenated in rank order. -/
def gatheredEmbeddingWeight (rankModels : List Model) : Mat :=
  (rankModels.map (fun mr => mr.embedding.weight.getD [])).flatten

/-- `_deparallelize_embedding`: regather the embedding weight, set
`num_embeddings` to its new size 0, restore the embedding's original
class, and for tied modules restore the class and set `out_features`
to the full vocabulary size (`module.weight.data = module.weight` is a
value no-op). -/
def deparallelizeEmbeddingStep (rankModels : List Model) (m : Model) : Model :=
  { m with
    embedding := restoreOrigCls
      { m.embedding with
        weight := some (gatheredEmbeddingWeight rankModels)
        numEmbeddings := (gatheredEmbeddingWeight rankModels).length }
    modules := m.modules.map (fun p =>
      if p.2.sharesEmbeddingWeight &&
          !(p.2.cls == ModuleClass.embeddingCls) &&
          !(p.2.cls == ModuleClass.vocabParallelEmbedding) then
        (p.1, restoreOrigCls
          { p.2 with outFeatures := (gatheredEmbeddingWeight rankModels).length })
      else p) }

/-- `TensorDeparallelEngine1D.deparallelize`, simulated over the
per-rank sharded models: the local model (rank 0) is up-rescaled, the
embedding regathered, every mapped module merged; the final
`update_module_arguments(model, mpu=None)` leaves the modelled state
unchanged. -/
def deparallelizeModel (mp : TPMapping) (W : Nat) (rankModels : List Model) : Model :=
  deparallelizeModulesStep mp rankModels
    (deparallelizeEmbeddingStep rankModels
      (updateMPArgumentsUp mp W (rankModels.headD default)))

/-- Parallelize on every rank, then deparallelize the resulting
per-rank models. -/
def roundTripModel (mp : TPMapping) (W : Nat) (m : Model) : Model :=
  deparallelizeModel mp W
    ((List.range W).map (fun r => (parallelizeModel mp W r m).1))

/-! ### Round trip of a single sliced tensor -/

lemma roundtrip_gather (l : List α) (W : Nat) (hW : 0 < W) (hdvd : W ∣ l.length) :
    ((List.range W).map (fun r => (torchChunk l W).getD r [])).flatten = l := by
  rcases Nat.eq_zero_or_pos l.length with hL | hL
  · have hnil : l = [] := List.eq_nil_of_length_eq_zero hL
    subst hnil
    rw [torchChunk_nil]
    clear hdvd hW hL
    induction W with
    | zero => rfl
    | succ k ih =>
        rw [List.range_succ, List.map_append, List.flatten_append, ih]
        simp [List.getD]
  · have hlen : (torchChunk l W).length = W := torchChunk_length_of_dvd l W hW hdvd hL
    have h1 := map_range_getD (torchChunk l W) ([] : List α)
    rw [hlen] at h1
    rw [h1]
    exact torchChunk_flatten l W hW

lemma div_pos_of_dvd {n L : Nat} (hn : 0 < n) (hL : 0 < L) (hdvd : n ∣ L) :
    0 < L / n := by
  obtain ⟨m, rfl⟩ := hdvd
  rw [Nat.mul_div_cancel_left m hn]
  rcases Nat.eq_zero_or_pos m with h | h
  · rw [h, Nat.mul_zero] at hL; omega
  · exact h

lemma torchChunk_getD_of_dvd (l : List α) (n j : Nat) (hn : 0 < n) (hL : 0 < l.length)
    (hdvd : n ∣ l.length) (hj : j < n) :
    (torchChunk l n).getD j [] =
      (l.drop (j * (l.length / n))).take (l.length / n) := by
  have hlen := torchChunk_length_of_dvd l n hn hdvd hL
  rw [torchChunk_getD l n j (by omega), ceilDivNat_of_dvd hn hdvd]

lemma seg_length (l : List α) (n j : Nat) (hn : 0 < n) (hdvd : n ∣ l.length)
    (hj : j < n) :
    ((l.drop (j * (l.length / n))).take (l.length / n)).length = l.length / n := by
  obtain ⟨m, hm⟩ := hdvd
  have hdivm : n * m / n = m := Nat.mul_div_cancel_left m hn
  simp only [List.length_take, List.length_drop, hm, hdivm]
  have h1 : (j + 1) * m ≤ n * m := Nat.mul_le_mul_right _ (by omega)
  have h2 : (j + 1) * m = j * m + m := by ring
  omega

lemma sliceBias_eq (b : List Int) (F W r : Nat) (hF : 0 < F) (hW : 0 < W) (hr : r < W)
    (hL : 0 < b.length) (hdvd : (F * W) ∣ b.length) :
    sliceBias b F W r =
      ((List.range F).map (fun i =>
        (torchChunk b (F * W)).getD (i * W + r) [])).flatten := by
  have hFW : 0 < F * W := Nat.mul_pos hF hW
  have hlen : (torchChunk b (F * W)).length = F * W :=
    torchChunk_length_of_dvd _ _ hFW hdvd hL
  unfold sliceBias
  by_cases hF1 : 1 < F
  · rw [if_pos hF1]
    exact (deconstructCombinedQkv_getD cat0 (torchChunk b (F * W)) F W r
      hF hW hr hlen).trans rfl
  · have hF2 : F = 1 := by omega
    subst hF2
    rw [if_neg (by omega)]
    have h01 : List.range 1 = [0] := by simp [List.range_succ]
    rw [h01, List.map_singleton]
    show _ = ((torchChunk b (1 * W)).getD (0 * W + r) []) ++ []
    rw [List.append_nil, Nat.zero_mul, Nat.zero_add]

lemma sliceBias_length (b : List Int) (F W r : Nat) (hF : 0 < F) (hW : 0 < W)
    (hr : r < W) (hL : 0 < b.length) (hdvd : (F * W) ∣ b.length) :
    (sliceBias b F W r).length = F * (b.length / (F * W)) := by
  have hFW : 0 < F * W := Nat.mul_pos hF hW
  rw [sliceBias_eq b F W r hF hW hr hL hdvd, List.length_flatten]
  have hrepl : ((List.range F).map (fun i =>
      (torchChunk b (F * W)).getD (i * W + r) [])).map List.length =
      List.replicate F (b.length / (F * W)) := by
    rw [List.map_map]
    have hmem : ∀ x ∈ (List.range F).map (List.length ∘ fun i =>
        (torchChunk b (F * W)).getD (i * W + r) []), x = b.length / (F * W) := by
      intro x hx
      obtain ⟨i, hi, rfl⟩ := List.mem_map.mp hx
      have hiF : i < F := List.mem_range.mp hi
      have hidx : i * W + r < F * W := by
        have h1 : (i + 1) * W ≤ F * W := Nat.mul_le_mul_right _ (by omega)
        have h2 : (i + 1) * W = i * W + W := by ring
        omega
      simp only [Function.comp_apply]
      rw [torchChunk_getD_of_dvd b (F * W) _ hFW hL hdvd hidx]
      exact seg_length b (F * W) _ hFW hdvd hidx
    have h2 := List.eq_replicate_of_mem hmem
    have hlenF : ((List.range F).map (List.length ∘ fun i =>
        (torchChunk b (F * W)).getD (i * W + r) [])).length = F := by simp
    rw [hlenF] at h2
    exact h2
  rw [hrepl, List.sum_replicate, smul_eq_mul]

lemma range_mul_flatten (F W : Nat) (f : Nat → α) :
    ((List.range F).map (fun i =>
      (List.range W).map (fun r => f (i * W + r)))).flatten =
      (List.range (F * W)).map f := by
  induction F with
  | zero => simp
  | succ F ih =>
      rw [List.range_succ, List.map_append, List.flatten_append, ih]
      have h1 : (F + 1) * W = F * W + W := by ring
      rw [h1, List.range_add, List.map_append, List.map_map]
      congr 1
      simp only [List.map_singleton, List.flatten_cons, List.flatten_nil,
        List.append_nil]
      apply List.map_congr_left
      intro r _
      simp only [Function.comp_apply]

lemma flatten_uniform_extract (ls : List (List α)) (c : Nat)
    (hc : ∀ x ∈ ls, x.length = c) (i : Nat) (hi : i < ls.length) :
    ((ls.flatten).drop (i * c)).take c = ls.getD i [] := by
  induction ls generalizing i with
  | nil => simp at hi
  | cons x xs ih =>
      cases i with
      | zero =>
          rw [Nat.zero_mul, List.drop_zero, List.flatten_cons, List.getD_cons_zero]
          have hx : x.length = c := hc x (List.mem_cons_self _ _)
          rw [← hx]
          exact List.take_left x xs.flatten
      | succ i =>
          rw [List.flatten_cons, List.getD_cons_succ]
          have hx : x.length = c := hc x (List.mem_cons_self _ _)
          have harith : (i + 1) * c = x.length + i * c := by rw [hx]; ring
          rw [harith, List.drop_append]
          exact ih (fun y hy => hc y (List.mem_cons_of_mem _ hy)) i
            (by simpa using hi)

lemma roundtrip_bias (b : List Int) (F W : Nat) (hF : 0 < F) (hW : 0 < W)
    (hL : 0 < b.length) (hdvd : (F * W) ∣ b.length) :
    mergeBiasTensors ((List.range W).map (fun r => sliceBias b F W r)) F = b := by
  have hFW : 0 < F * W := Nat.mul_pos hF hW
  have hc : 0 < b.length / (F * W) := div_pos_of_dvd hFW hL hdvd
  have hlenchunks : (torchChunk b (F * W)).length = F * W :=
    torchChunk_length_of_dvd _ _ hFW hdvd hL
  by_cases hF1 : 1 < F
  · unfold mergeBiasTensors
    rw [if_pos hF1]
    unfold reconstructCombinedQkv1
    -- each rank tensor, re-chunked into F, recovers the original chunks
    have hinner : ∀ r, r < W → ∀ i, i < F →
        (torchChunk (sliceBias b F W r) F).getD i [] =
          (torchChunk b (F * W)).getD (i * W + r) [] := by
      intro r hrW i hiF
      have hslen : (sliceBias b F W r).length = F * (b.length / (F * W)) :=
        sliceBias_length b F W r hF hW hrW hL hdvd
      have hsdvd : F ∣ (sliceBias b F W r).length := ⟨_, hslen⟩
      have hsL : 0 < (sliceBias b F W r).length := by
        rw [hslen]; exact Nat.mul_pos hF hc
      rw [torchChunk_getD_of_dvd _ F i hF hsL hsdvd hiF]
      have hdivc : (sliceBias b F W r).length / F = b.length / (F * W) := by
        rw [hslen, Nat.mul_div_cancel_left _ hF]
      rw [hdivc]
      rw [sliceBias_eq b F W r hF hW hrW hL hdvd]
      have hunif : ∀ x ∈ (List.range F).map (fun k =>
          (torchChunk b (F * W)).getD (k * W + r) []),
          x.length = b.length / (F * W) := by
        intro x hx
        obtain ⟨k, hk, rfl⟩ := List.mem_map.mp hx
        have hkF : k < F := List.mem_range.mp hk
        have hidx : k * W + r < F * W := by
          have h1 : (k + 1) * W ≤ F * W := Nat.mul_le_mul_right _ (by omega)
          have h2 : (k + 1) * W = k * W + W := by ring
          omega
        rw [torchChunk_getD_of_dvd b (F * W) _ hFW hL hdvd hidx]
        exact seg_length b (F * W) _ hFW hdvd hidx
      rw [flatten_uniform_extract _ (b.length / (F * W)) hunif i (by simpa using hiF)]
      rw [List.getD_eq_getElem _ _ (by simpa using hiF)]
      simp
    have hslots : (List.range F).map (fun i =>
        ((((List.range W).map (fun r => sliceBias b F W r)).map
          (fun t => (torchChunk t F).getD i []))).flatten) =
        (List.range F).map (fun i =>
          ((List.range W).map (fun r =>
            (torchChunk b (F * W)).getD (i * W + r) [])).flatten) := by
      apply List.map_congr_left
      intro i hi
      have hiF : i < F := List.mem_range.mp hi
      congr 1
      rw [List.map_map]
      apply List.map_congr_left
      intro r hrm
      have hrW : r < W := List.mem_range.mp hrm
      simp only [Function.comp_apply]
      exact hinner r hrW i hiF
    show cat0 _ = b
    unfold cat0
    rw [hslots]
    have hff : ((List.range F).map (fun i =>
        ((List.range W).map (fun r =>
          (torchChunk b (F * W)).getD (i * W + r) [])).flatten)).flatten =
        (((List.range F).map (fun i =>
          (List.range W).map (fun r =>
            (torchChunk b (F * W)).getD (i * W + r) []))).map List.flatten).flatten := by
      rw [List.map_map]
      rfl
    rw [hff, Eq.symm List.flatten_flatten,
      range_mul_flatten F W (fun j => (torchChunk b (F * W)).getD j [])]
    have h1 := map_range_getD (torchChunk b (F * W)) ([] : List Int)
    rw [hlenchunks] at h1
    rw [h1]
    exact torchChunk_flatten b (F * W) hFW
  · have hF2 : F = 1 := by omega
    subst hF2
    unfold mergeBiasTensors
    rw [if_neg (by omega)]
    show cat0 _ = b
    unfold cat0
    have hmap : (List.range W).map (fun r => sliceBias b 1 W r) =
        (List.range W).map (fun r => (torchChunk b W).getD r []) := by
      apply List.map_congr_left
      intro r _
      unfold sliceBias
      rw [if_neg (by omega), Nat.one_mul]
    rw [hmap]
    exact roundtrip_gather b W hW (by rwa [Nat.one_mul] at hdvd)

/-! ### Round trip of sliced 2-D weights -/

lemma headD_mem (l : List α) (d : α) (hne : l ≠ []) : l.headD d ∈ l := by
  cases l with
  | nil => exact absurd rfl hne
  | cons a t => exact List.mem_cons_self _ _

lemma chunkAtDim_zero (m : Mat) (n : Nat) : chunkAtDim 0 m n = torchChunk m n := by
  unfold chunkAtDim
  rw [if_pos rfl]

lemma chunkAtDim_one (m : Mat) (n : Nat) : chunkAtDim 1 m n = torchChunkDim1 m n := by
  unfold chunkAtDim
  rw [if_neg (by omega)]

lemma catAtDim_zero (ts : List Mat) : catAtDim 0 ts = ts.flatten := by
  unfold catAtDim
  rw [if_pos rfl]

lemma catAtDim_one (ts : List Mat) : catAtDim 1 ts = catDim1 ts := by
  unfold catAtDim
  rw [if_neg (by omega)]

lemma catDim1_map_rows (idx : List ι) (w : List β) (g : ι → β → List α)
    (hne : idx ≠ []) :
    catDim1 (idx.map (fun i => w.map (fun row => g i row))) =
      w.map (fun row => (idx.map (fun i => g i row)).flatten) := by
  induction idx with
  | nil => exact absurd rfl hne
  | cons i rest ih =>
      cases rest with
      | nil =>
          show w.map (fun row => g i row) = _
          apply List.map_congr_left
          intro row _
          simp
      | cons i2 rest2 =>
          show List.zipWith (· ++ ·) (w.map (fun row => g i row))
            (catDim1 ((i2 :: rest2).map (fun j => w.map (fun row => g j row)))) = _
          rw [ih (by simp)]
          rw [List.zipWith_map, List.zipWith_same]
          apply List.map_congr_left
          intro row _
          simp

lemma torchChunkDim1_getD (m : List (List α)) (n j : Nat) (hn : 0 < n)
    (hw : 0 < dim1Width m) (hdvd : n ∣ dim1Width m)
    (hrect : ∀ row ∈ m, row.length = dim1Width m) (hj : j < n) :
    (torchChunkDim1 m n).getD j [] =
      m.map (fun row => (torchChunk row n).getD j []) := by
  have hlen : (torchChunkDim1 m n).length = n :=
    torchChunkDim1_length_of_dvd m n hn hdvd hw
  have hj2 : j < (torchChunkDim1 m n).length := by rw [hlen]; exact hj
  rw [List.getD_eq_getElem _ _ hj2]
  simp only [torchChunkDim1, List.getElem_map, List.getElem_range]
  apply List.map_congr_left
  intro row hrow
  have hrl : row.length = dim1Width m := hrect row hrow
  have hcl : (torchChunk row n).length = n := by
    apply torchChunk_length_of_dvd row n hn
    · rw [hrl]; exact hdvd
    · rw [hrl]; exact hw
  rw [torchChunk_getD row n j (by rw [hcl]; exact hj), hrl]

/-- Slicing a rectangular weight along dim 1 acts row by row exactly
as the 1-D bias slice. -/
lemma sliceWeight_dim1 (w : Mat) (F W r : Nat) (hF : 0 < F) (hW : 0 < W)
    (hr : r < W) (hw : 0 < dim1Width w) (hdvd : (F * W) ∣ dim1Width w)
    (hrect : ∀ row ∈ w, row.length = dim1Width w) :
    sliceWeight w 1 F W r = w.map (fun row => sliceBias row F W r) := by
  have hFW : 0 < F * W := Nat.mul_pos hF hW
  have hchunklen : (torchChunkDim1 w (F * W)).length = F * W :=
    torchChunkDim1_length_of_dvd w (F * W) hFW hdvd hw
  by_cases hF1 : 1 < F
  · have hLHS : sliceWeight w 1 F W r =
        catDim1 ((List.range F).map (fun i =>
          (torchChunkDim1 w (F * W)).getD (i * W + r) [])) := by
      unfold sliceWeight
      rw [chunkAtDim_one, if_pos hF1]
      exact deconstructCombinedQkv_getD catDim1 (torchChunkDim1 w (F * W)) F W r
        hF hW hr hchunklen
    rw [hLHS]
    have hrw : (List.range F).map (fun i =>
        (torchChunkDim1 w (F * W)).getD (i * W + r) []) =
        (List.range F).map (fun i =>
          w.map (fun row => (torchChunk row (F * W)).getD (i * W + r) [])) := by
      apply List.map_congr_left
      intro i hi
      have hiF : i < F := List.mem_range.mp hi
      have hidx : i * W + r < F * W := by
        have h1 : (i + 1) * W ≤ F * W := Nat.mul_le_mul_right _ (by omega)
        have h2 : (i + 1) * W = i * W + W := by ring
        omega
      exact torchChunkDim1_getD w (F * W) (i * W + r) hFW hw hdvd hrect hidx
    rw [hrw, catDim1_map_rows (List.range F) w
      (fun i row => (torchChunk row (F * W)).getD (i * W + r) [])
      (by simp only [ne_eq, List.range_eq_nil]; omega)]
    apply List.map_congr_left
    intro row hrow
    have hrowlen : row.length = dim1Width w := hrect row hrow
    have hchunkrow : (torchChunk row (F * W)).length = F * W := by
      apply torchChunk_length_of_dvd row (F * W) hFW
      · rw [hrowlen]; exact hdvd
      · rw [hrowlen]; exact hw
    have h := deconstructCombinedQkv_getD cat0 (torchChunk row (F * W)) F W r
      hF hW hr hchunkrow
    unfold sliceBias
    rw [if_pos hF1]
    exact h.symm
  · have hF2 : F = 1 := by omega
    subst hF2
    unfold sliceWeight
    rw [chunkAtDim_one, if_neg (by omega)]
    rw [torchChunkDim1_getD w (1 * W) r (by omega) hw hdvd hrect (by omega)]
    apply List.map_congr_left
    intro row _
    unfold sliceBias
    rw [if_neg (by omega)]

/-- Merging the per-rank dim-1 slices of a rectangular weight recovers
the original weight (any fusion degree: dim 1 is the last dimension,
so the fused regroup concatenates along the slicing dimension). -/
lemma roundtrip_weight_dim1 (w : Mat) (F W : Nat) (hF : 0 < F) (hW : 0 < W)
    (hw : 0 < dim1Width w) (hdvd : (F * W) ∣ dim1Width w)
    (hrect : ∀ row ∈ w, row.length = dim1Width w) :
    mergeWeight ((List.range W).map (fun r => sliceWeight w 1 F W r)) F 1 = w := by
  have hFW : 0 < F * W := Nat.mul_pos hF hW
  have hWne : (List.range W) ≠ ([] : List Nat) := by
    simp only [ne_eq, List.range_eq_nil]; omega
  have hmapslice : (List.range W).map (fun r => sliceWeight w 1 F W r) =
      (List.range W).map (fun r => w.map (fun row => sliceBias row F W r)) := by
    apply List.map_congr_left
    intro r hrm
    exact sliceWeight_dim1 w F W r hF hW (List.mem_range.mp hrm) hw hdvd hrect
  rw [hmapslice]
  unfold mergeWeight
  by_cases hF1 : 1 < F
  · rw [if_pos hF1]
    unfold reconstructCombinedQkv2
    simp only [catAtDim_one, chunkAtDim_one, List.map_map]
    have houter : (List.range F).map (fun i =>
        catDim1 ((List.range W).map ((fun t => (torchChunkDim1 t F).getD i []) ∘
          (fun r => w.map (fun row => sliceBias row F W r))))) =
        (List.range F).map (fun i =>
          w.map (fun row => ((List.range W).map (fun r =>
            (torchChunk (sliceBias row F W r) F).getD i [])).flatten)) := by
      apply List.map_congr_left
      intro i hi
      have hiF : i < F := List.mem_range.mp hi
      have h1 : (List.range W).map ((fun t => (torchChunkDim1 t F).getD i []) ∘
          (fun r => w.map (fun row => sliceBias row F W r))) =
          (List.range W).map (fun r =>
            w.map (fun row => (torchChunk (sliceBias row F W r) F).getD i [])) := by
        apply List.map_congr_left
        intro r hrm
        have hrW : r < W := List.mem_range.mp hrm
        simp only [Function.comp_apply]
        have hwne : w ≠ [] := by
          intro hcontra
          rw [hcontra] at hw
          simp [dim1Width] at hw
        have htne : w.map (fun row => sliceBias row F W r) ≠ [] := by
          simp only [ne_eq, List.map_eq_nil_iff]
          exact hwne
        have hc : 0 < dim1Width w / (F * W) := div_pos_of_dvd hFW hw hdvd
        have hlenrow : ∀ row2 ∈ w.map (fun row => sliceBias row F W r),
            row2.length = F * (dim1Width w / (F * W)) := by
          intro row2 hrow2
          obtain ⟨row, hrowm, rfl⟩ := List.mem_map.mp hrow2
          have hrl : row.length = dim1Width w := hrect row hrowm
          have hsl := sliceBias_length row F W r hF hW hrW
            (by rw [hrl]; exact hw) (by rw [hrl]; exact hdvd)
          rw [hsl, hrl]
        have hdim1t : dim1Width (w.map (fun row => sliceBias row F W r)) =
            F * (dim1Width w / (F * W)) :=
          hlenrow _ (headD_mem _ [] htne)
        rw [torchChunkDim1_getD (w.map (fun row => sliceBias row F W r)) F i hF
          (by rw [hdim1t]; exact Nat.mul_pos hF hc)
          (by rw [hdim1t]; exact dvd_mul_right F _)
          (by intro row2 h; rw [hdim1t]; exact hlenrow row2 h) hiF]
        rw [List.map_map]
        rfl
      rw [h1, catDim1_map_rows (List.range W) w
        (fun r row => (torchChunk (sliceBias row F W r) F).getD i []) hWne]
    rw [houter, catDim1_map_rows (List.range F) w
      (fun i row => ((List.range W).map (fun r =>
        (torchChunk (sliceBias row F W r) F).getD i [])).flatten)
      (by simp only [ne_eq, List.range_eq_nil]; omega)]
    conv_rhs => rw [← List.map_id w]
    apply List.map_congr_left
    intro row hrow
    have hrl : row.length = dim1Width w := hrect row hrow
    have h := roundtrip_bias row F W hF hW (by rw [hrl]; exact hw)
      (by rw [hrl]; exact hdvd)
    unfold mergeBiasTensors at h
    rw [if_pos hF1] at h
    unfold reconstructCombinedQkv1 at h
    simp only [cat0, List.map_map] at h
    exact h
  · have hF2 : F = 1 := by omega
    subst hF2
    rw [if_neg (by omega), catAtDim_one]
    rw [catDim1_map_rows (List.range W) w (fun r row => sliceBias row 1 W r) hWne]
    conv_rhs => rw [← List.map_id w]
    apply List.map_congr_left
    intro row hrow
    have hrl : row.length = dim1Width w := hrect row hrow
    have h := roundtrip_bias row 1 W (by omega) hW (by rw [hrl]; exact hw)
      (by rw [hrl]; exact hdvd)
    unfold mergeBiasTensors at h
    rw [if_neg (by omega)] at h
    exact h

/-- Merging the per-rank dim-0 slices (fusion degree 1) recovers the
original weight. -/
lemma roundtrip_weight_dim0 (w : Mat) (W : Nat) (hW : 0 < W) (hdvd : W ∣ w.length) :
    mergeWeight ((List.range W).map (fun r => sliceWeight w 0 1 W r)) 1 0 = w := by
  unfold mergeWeight
  rw [if_neg (by omega), catAtDim_zero]
  have hmap : (List.range W).map (fun r => sliceWeight w 0 1 W r) =
      (List.range W).map (fun r => (torchChunk w W).getD r []) := by
    apply List.map_congr_left
    intro r _
    unfold sliceWeight
    rw [if_neg (by omega), chunkAtDim_zero, Nat.one_mul]
  rw [hmap]
  exact roundtrip_gather w W hW hdvd

/-! ### The round trip, module by module -/

lemma getD_map_lt (l : List α) (f : α → β) (i : Nat) (d : β) (d2 : α)
    (hi : i < l.length) :
    (l.map f).getD i d = f (l.getD i d2) := by
  rw [List.getD_eq_getElem _ _ (by simpa using hi), List.getElem_map,
    List.getD_eq_getElem _ _ hi]

lemma getD_range_map (n : Nat) (g : Nat → β) (i : Nat) (d : β) (hi : i < n) :
    ((List.range n).map g).getD i d = g i := by
  rw [getD_map_lt (List.range n) g i d 0 (by simpa using hi)]
  congr 1
  rw [List.getD_eq_getElem _ _ (by simpa using hi), List.getElem_range]

lemma headD_range_map (n : Nat) (g : Nat → β) (d : β) (hn : 0 < n) :
    ((List.range n).map g).headD d = g 0 := by
  cases n with
  | zero => omega
  | succ k =>
      rw [List.range_succ_eq_map]
      rfl

/-- The attribute round trip: floor-dividing by `W` and then
multiplying by `W` restores an attribute bag whenever the rescale list
is duplicate-free and `W` divides every value it names. -/
lemma applyUpdateAttrs_roundtrip (names : List String) (attrs : Attrs) (W : Nat)
    (hnd : names.Nodup)
    (hdvd : ∀ p ∈ attrs, p.1 ∈ names → (W : Int) ∣ p.2) :
    applyUpdateAttrs (fun v => deparallelRescaleAttr v W) names
      (applyUpdateAttrs (fun v => parallelRescaleAttr v W) names attrs) = attrs := by
  rw [applyUpdateAttrs_eq_map _ _ _ hnd, applyUpdateAttrs_eq_map _ _ _ hnd,
    List.map_map]
  conv_rhs => rw [← List.map_id attrs]
  apply List.map_congr_left
  intro p hp
  simp only [Function.comp_apply, id_eq]
  by_cases hm : p.1 ∈ names
  · simp only [if_pos hm]
    have hd := hdvd p hp hm
    have hval : deparallelRescaleAttr (parallelRescaleAttr p.2 W) W = p.2 := by
      unfold deparallelRescaleAttr parallelRescaleAttr
      rw [Int.fdiv_eq_ediv_of_dvd hd]
      exact Int.ediv_mul_cancel hd
    rw [hval]
  · simp only [if_neg hm]

/-- One module of `_update_mp_arguments` (parallelize direction). -/
def downAttrsMod (mp : TPMapping) (W : Nat) (p : String × TPModule) :
    String × TPModule :=
  (p.1, { p.2 with attrs := (applyUpdateAttrs (fun v => parallelRescaleAttr v W)
    mp.updateAttrs p.2.attrs) })

/-- One module of `_update_mp_arguments` (deparallelize direction). -/
def upAttrsMod (mp : TPMapping) (W : Nat) (p : String × TPModule) :
    String × TPModule :=
  (p.1, { p.2 with attrs := (applyUpdateAttrs (fun v => deparallelRescaleAttr v W)
    mp.updateAttrs p.2.attrs) })

/-- One module of `_parallelize_embedding`'s tied-head loop. -/
def tieMod (mp : TPMapping) (p : String × TPModule) : String × TPModule :=
  if p.2.sharesEmbeddingWeight &&
      !(p.2.cls == ModuleClass.embeddingCls) &&
      !(p.2.cls == ModuleClass.vocabParallelEmbedding) then
    (p.1, { p.2 with
      reversedFlag := mp.isReversedParam p.1
      fusionDegree := 1
      origCls := some p.2.cls
      gatherOutput := true
      cls := ModuleClass.columnParallelLinear })
  else p

/-- One module of `_parallelize_modules`. -/
def sliceStepMod (mp : TPMapping) (W r : Nat) (p : String × TPModule) :
    String × TPModule :=
  if mp.isColumnParallel p.1 then
    (p.1, { sliceModule p.2 (mp.isReversedParam p.1)
        (mp.combinedQkvDegree p.1) true 0 W r with
      cls := ModuleClass.columnParallelLinear })
  else if mp.isRowParallel p.1 then
    (p.1, { sliceModule p.2 (mp.isReversedParam p.1) 1 false 1 W r with
      cls := ModuleClass.rowParallelLinear })
  else p

/-- One module of `_deparallelize_embedding`'s tied-head loop. -/
def depTieMod (rankModels : List Model) (p : String × TPModule) :
    String × TPModule :=
  if p.2.sharesEmbeddingWeight &&
      !(p.2.cls == ModuleClass.embeddingCls) &&
      !(p.2.cls == ModuleClass.vocabParallelEmbedding) then
    (p.1, restoreOrigCls
      { p.2 with outFeatures := (gatheredEmbeddingWeight rankModels).length })
  else p

lemma updateMPArgumentsDown_modules (mp : TPMapping) (W : Nat) (m : Model) :
    (updateMPArgumentsDown mp W m).modules = m.modules.map (downAttrsMod mp W) := rfl

lemma updateMPArgumentsUp_modules (mp : TPMapping) (W : Nat) (m : Model) :
    (updateMPArgumentsUp mp W m).modules = m.modules.map (upAttrsMod mp W) := rfl

lemma parEmb_modules (mp : TPMapping) (W r : Nat) (m : Model) :
    (parallelizeEmbeddingStep mp W r m).modules = m.modules.map (tieMod mp) := rfl

lemma parMods_modules (mp : TPMapping) (W r : Nat) (m : Model) :
    (parallelizeModulesStep mp W r m).modules =
      m.modules.map (sliceStepMod mp W r) := rfl

lemma depEmb_modules (rankModels : List Model) (m : Model) :
    (deparallelizeEmbeddingStep rankModels m).modules =
      m.modules.map (depTieMod rankModels) := rfl

lemma parallelizeModel_run (mp : TPMapping) (W r : Nat) (m : Model)
    (hE : m.hasInputEmbeddings = true) :
    (parallelizeModel mp W r m).1 =
      parallelizeModulesStep mp W r
        (parallelizeEmbeddingStep mp W r (updateMPArgumentsDown mp W m)) := by
  unfold parallelizeModel
  rw [if_pos (show (updateMPArgumentsDown mp W m).hasInputEmbeddings = true from hE)]

lemma parallelizeModel_modules (mp : TPMapping) (W r : Nat) (m : Model)
    (hE : m.hasInputEmbeddings = true) :
    ((parallelizeModel mp W r m).1).modules =
      m.modules.map (fun p =>
        sliceStepMod mp W r (tieMod mp (downAttrsMod mp W p))) := by
  rw [parallelizeModel_run mp W r m hE, parMods_modules, parEmb_modules,
    updateMPArgumentsDown_modules, List.map_map, List.map_map]
  rfl

/-- The whole per-module round trip at one position: attrs down, tied
retag, rank-0 slice, attrs up, deparallelize-side tied retag, merge. -/
def roundTripMod (mp : TPMapping) (W : Nat) (rms : List Model) (idx : Nat)
    (p : String × TPModule) : String × TPModule :=
  deparallelizeOneModule mp rms idx
    (depTieMod rms (upAttrsMod mp W (sliceStepMod mp W 0 (tieMod mp
      (downAttrsMod mp W p)))))

lemma roundTripModel_modules (mp : TPMapping) (W : Nat) (m : Model)
    (hW : 0 < W) (hE : m.hasInputEmbeddings = true) :
    (roundTripModel mp W m).modules =
      (List.range m.modules.length).map (fun idx =>
        roundTripMod mp W
          ((List.range W).map (fun r => (parallelizeModel mp W r m).1)) idx
          (m.modules.getD idx ("", default))) := by
  unfold roundTripMod
  unfold roundTripModel deparallelizeModel
  rw [headD_range_map W _ default hW]
  have hmods : (deparallelizeEmbeddingStep
      ((List.range W).map (fun r => (parallelizeModel mp W r m).1))
      (updateMPArgumentsUp mp W (parallelizeModel mp W 0 m).1)).modules =
      m.modules.map (fun p =>
        depTieMod ((List.range W).map (fun r => (parallelizeModel mp W r m).1))
          (upAttrsMod mp W (sliceStepMod mp W 0 (tieMod mp
            (downAttrsMod mp W p))))) := by
    rw [depEmb_modules, updateMPArgumentsUp_modules,
      parallelizeModel_modules mp W 0 m hE, List.map_map, List.map_map]
    rfl
  show (deparallelizeModulesStep mp _ _).modules = _
  unfold deparallelizeModulesStep
  show (List.range _).map _ = _
  rw [hmods, List.length_map]
  apply List.map_congr_left
  intro idx hidx
  have hi : idx < m.modules.length := List.mem_range.mp hidx
  congr 1
  exact getD_map_lt m.modules _ idx ("", default) ("", default) hi

lemma gatherModules_roundTrip (mp : TPMapping) (W : Nat) (m : Model) (idx : Nat)
    (hE : m.hasInputEmbeddings = true) (hi : idx < m.modules.length) :
    gatherModules ((List.range W).map (fun r => (parallelizeModel mp W r m).1))
        idx =
      (List.range W).map (fun r =>
        (sliceStepMod mp W r (tieMod mp (downAttrsMod mp W
          (m.modules.getD idx ("", default))))).2) := by
  unfold gatherModules
  rw [List.map_map]
  apply List.map_congr_left
  intro r _
  simp only [Function.comp_apply]
  rw [parallelizeModel_modules mp W r m hE,
    getD_map_lt m.modules _ idx ("", default) ("", default) hi]

lemma restoreOrigCls_weight (mod : TPModule) :
    (restoreOrigCls mod).weight = mod.weight := by
  cases h : mod.origCls <;> simp [restoreOrigCls, h]

lemma restoreOrigCls_bias (mod : TPModule) :
    (restoreOrigCls mod).bias = mod.bias := by
  cases h : mod.origCls <;> simp [restoreOrigCls, h]

lemma restoreOrigCls_attrs (mod : TPModule) :
    (restoreOrigCls mod).attrs = mod.attrs := by
  cases h : mod.origCls <;> simp [restoreOrigCls, h]

lemma sliceModule_attrs (mod : TPModule) (rev : Bool) (F : Nat) (sb : Bool)
    (dim W r : Nat) :
    (sliceModule mod rev F sb dim W r).attrs = mod.attrs := by
  unfold sliceModule sliceModuleBias sliceModuleWeight sliceModuleTagged
  cases hw : mod.weight <;> cases hb : mod.bias <;> cases sb <;> simp [hw, hb]

lemma sliceModule_shares (mod : TPModule) (rev : Bool) (F : Nat) (sb : Bool)
    (dim W r : Nat) :
    (sliceModule mod rev F sb dim W r).sharesEmbeddingWeight =
      mod.sharesEmbeddingWeight := by
  unfold sliceModule sliceModuleBias sliceModuleWeight sliceModuleTagged
  cases hw : mod.weight <;> cases hb : mod.bias <;> cases sb <;> simp [hw, hb]

lemma sliceModule_reversedFlag (mod : TPModule) (rev : Bool) (F : Nat) (sb : Bool)
    (dim W r : Nat) :
    (sliceModule mod rev F sb dim W r).reversedFlag = rev := by
  unfold sliceModule sliceModuleBias sliceModuleWeight sliceModuleTagged
  cases hw : mod.weight <;> cases hb : mod.bias <;> cases sb <;> simp [hw, hb]

lemma sliceModule_fusionDegree (mod : TPModule) (rev : Bool) (F : Nat) (sb : Bool)
    (dim W r : Nat) :
    (sliceModule mod rev F sb dim W r).fusionDegree = F := by
  unfold sliceModule sliceModuleBias sliceModuleWeight sliceModuleTagged
  cases hw : mod.weight <;> cases hb : mod.bias <;> cases sb <;> simp [hw, hb]

lemma sliceModule_weight (mod : TPModule) (rev : Bool) (F : Nat) (sb : Bool)
    (dim W r : Nat) :
    (sliceModule mod rev F sb dim W r).weight =
      mod.weight.map (fun w => sliceWeight w (if rev then 1 - dim else dim) F W r) := by
  unfold sliceModule sliceModuleBias sliceModuleWeight sliceModuleTagged
  cases hw : mod.weight <;> cases hb : mod.bias <;> cases sb <;> simp [hw, hb]

lemma sliceModule_bias (mod : TPModule) (rev : Bool) (F : Nat) (sb : Bool)
    (dim W r : Nat) :
    (sliceModule mod rev F sb dim W r).bias =
      (if sb then mod.bias.map (fun b => sliceBias b F W r) else mod.bias) := by
  unfold sliceModule sliceModuleBias sliceModuleWeight sliceModuleTagged
  cases hw : mod.weight <;> cases hb : mod.bias <;> cases sb <;> simp [hw, hb]

lemma mergeModule_attrs (mod : TPModule) (mods : List TPModule) (rev : Bool)
    (F : Nat) (mb : Bool) (dim : Nat) :
    (mergeModule mod mods rev F mb dim).attrs = mod.attrs := by
  unfold mergeModule mergeModuleBias mergeModuleWeight
  cases hw : mod.weight <;> cases hb : mod.bias <;> cases mb <;> simp [hw, hb]

lemma mergeModule_weight (mod : TPModule) (mods : List TPModule) (rev : Bool)
    (F : Nat) (mb : Bool) (dim : Nat) :
    (mergeModule mod mods rev F mb dim).weight =
      mod.weight.map (fun _ =>
        mergeWeight (mods.map (fun mr => mr.weight.getD []))
          F (if rev then 1 - dim else dim)) := by
  unfold mergeModule mergeModuleBias mergeModuleWeight
  cases hw : mod.weight <;> cases hb : mod.bias <;> cases mb <;> simp [hw, hb]

lemma mergeModule_bias (mod : TPModule) (mods : List TPModule) (rev : Bool)
    (F : Nat) (mb : Bool) (dim : Nat) :
    (mergeModule mod mods rev F mb dim).bias =
      (if mb then mod.bias.map (fun _ =>
        mergeBiasTensors (mods.map (fun mr => mr.bias.getD [])) F)
      else mod.bias) := by
  unfold mergeModule mergeModuleBias mergeModuleWeight
  cases hw : mod.weight <;> cases hb : mod.bias <;> cases mb <;> simp [hw, hb]

lemma sliceStepMod_col (mp : TPMapping) (W r : Nat) (p : String × TPModule)
    (hcol : mp.isColumnParallel p.1 = true) :
    sliceStepMod mp W r p =
      (p.1, { sliceModule p.2 (mp.isReversedParam p.1)
          (mp.combinedQkvDegree p.1) true 0 W r with
        cls := ModuleClass.columnParallelLinear }) := by
  unfold sliceStepMod
  rw [if_pos hcol]

lemma sliceStepMod_row (mp : TPMapping) (W r : Nat) (p : String × TPModule)
    (hcol : mp.isColumnParallel p.1 = false)
    (hrow : mp.isRowParallel p.1 = true) :
    sliceStepMod mp W r p =
      (p.1, { sliceModule p.2 (mp.isReversedParam p.1) 1 false 1 W r with
        cls := ModuleClass.rowParallelLinear }) := by
  unfold sliceStepMod
  rw [if_neg (by simp [hcol]), if_pos hrow]

lemma sliceStepMod_plain (mp : TPMapping) (W r : Nat) (p : String × TPModule)
    (hcol : mp.isColumnParallel p.1 = false)
    (hrow : mp.isRowParallel p.1 = false) :
    sliceStepMod mp W r p = p := by
  unfold sliceStepMod
  rw [if_neg (by simp [hcol]), if_neg (by simp [hrow])]

lemma tieMod_not (mp : TPMapping) (p : String × TPModule)
    (h : (p.2.sharesEmbeddingWeight &&
      !(p.2.cls == ModuleClass.embeddingCls) &&
      !(p.2.cls == ModuleClass.vocabParallelEmbedding)) = false) :
    tieMod mp p = p := by
  unfold tieMod
  rw [if_neg (by simp [h])]

lemma tieMod_yes (mp : TPMapping) (p : String × TPModule)
    (h : (p.2.sharesEmbeddingWeight &&
      !(p.2.cls == ModuleClass.embeddingCls) &&
      !(p.2.cls == ModuleClass.vocabParallelEmbedding)) = true) :
    tieMod mp p = (p.1, { p.2 with
      reversedFlag := mp.isReversedParam p.1
      fusionDegree := 1
      origCls := some p.2.cls
      gatherOutput := true
      cls := ModuleClass.columnParallelLinear }) := by
  unfold tieMod
  rw [if_pos h]

lemma depTieMod_not (rms : List Model) (p : String × TPModule)
    (h : (p.2.sharesEmbeddingWeight &&
      !(p.2.cls == ModuleClass.embeddingCls) &&
      !(p.2.cls == ModuleClass.vocabParallelEmbedding)) = false) :
    depTieMod rms p = p := by
  unfold depTieMod
  rw [if_neg (by simp [h])]

lemma depTieMod_yes (rms : List Model) (p : String × TPModule)
    (h : (p.2.sharesEmbeddingWeight &&
      !(p.2.cls == ModuleClass.embeddingCls) &&
      !(p.2.cls == ModuleClass.vocabParallelEmbedding)) = true) :
    depTieMod rms p = (p.1, restoreOrigCls
      { p.2 with outFeatures := (gatheredEmbeddingWeight rms).length }) := by
  unfold depTieMod
  rw [if_pos h]

lemma depOne_col (mp : TPMapping) (rms : List Model) (idx : Nat)
    (p : String × TPModule) (hcol : mp.isColumnParallel p.1 = true) :
    deparallelizeOneModule mp rms idx p =
      (p.1, restoreOrigCls (mergeModule p.2 (gatherModules rms idx)
        p.2.reversedFlag p.2.fusionDegree true 0)) := by
  unfold deparallelizeOneModule
  rw [if_pos hcol]

lemma depOne_row (mp : TPMapping) (rms : List Model) (idx : Nat)
    (p : String × TPModule) (hcol : mp.isColumnParallel p.1 = false)
    (hrow : mp.isRowParallel p.1 = true) :
    deparallelizeOneModule mp rms idx p =
      (p.1, restoreOrigCls (mergeModule p.2 (gatherModules rms idx)
        p.2.reversedFlag p.2.fusionDegree false 1)) := by
  unfold deparallelizeOneModule
  rw [if_neg (by simp [hcol]), if_pos hrow]

lemma depOne_plain (mp : TPMapping) (rms : List Model) (idx : Nat)
    (p : String × TPModule) (hcol : mp.isColumnParallel p.1 = false)
    (hrow : mp.isRowParallel p.1 = false) :
    deparallelizeOneModule mp rms idx p = p := by
  unfold deparallelizeOneModule
  rw [if_neg (by simp [hcol]), if_neg (by simp [hrow])]

lemma upAttrsMod_pair (mp : TPMapping) (W : Nat) (nm : String) (md : TPModule) :
    upAttrsMod mp W (nm, md) = (nm, { md with
      attrs := (applyUpdateAttrs (fun v => deparallelRescaleAttr v W)
        mp.updateAttrs md.attrs) }) := rfl

lemma downAttrsMod_fst (mp : TPMapping) (W : Nat) (p : String × TPModule) :
    (downAttrsMod mp W p).1 = p.1 := rfl

lemma downAttrsMod_weight (mp : TPMapping) (W : Nat) (p : String × TPModule) :
    (downAttrsMod mp W p).2.weight = p.2.weight := rfl

lemma downAttrsMod_bias (mp : TPMapping) (W : Nat) (p : String × TPModule) :
    (downAttrsMod mp W p).2.bias = p.2.bias := rfl

lemma downAttrsMod_shares (mp : TPMapping) (W : Nat) (p : String × TPModule) :
    (downAttrsMod mp W p).2.sharesEmbeddingWeight =
      p.2.sharesEmbeddingWeight := rfl

lemma downAttrsMod_attrs (mp : TPMapping) (W : Nat) (p : String × TPModule) :
    (downAttrsMod mp W p).2.attrs =
      applyUpdateAttrs (fun v => parallelRescaleAttr v W)
        mp.updateAttrs p.2.attrs := rfl

lemma upAttrsMod_fst (mp : TPMapping) (W : Nat) (p : String × TPModule) :
    (upAttrsMod mp W p).1 = p.1 := rfl

lemma upAttrsMod_weight (mp : TPMapping) (W : Nat) (p : String × TPModule) :
    (upAttrsMod mp W p).2.weight = p.2.weight := rfl

lemma upAttrsMod_bias (mp : TPMapping) (W : Nat) (p : String × TPModule) :
    (upAttrsMod mp W p).2.bias = p.2.bias := rfl

lemma upAttrsMod_shares (mp : TPMapping) (W : Nat) (p : String × TPModule) :
    (upAttrsMod mp W p).2.sharesEmbeddingWeight =
      p.2.sharesEmbeddingWeight := rfl

lemma upAttrsMod_reversedFlag (mp : TPMapping) (W : Nat) (p : String × TPModule) :
    (upAttrsMod mp W p).2.reversedFlag = p.2.reversedFlag := rfl

lemma upAttrsMod_fusionDegree (mp : TPMapping) (W : Nat) (p : String × TPModule) :
    (upAttrsMod mp W p).2.fusionDegree = p.2.fusionDegree := rfl

lemma upAttrsMod_attrs (mp : TPMapping) (W : Nat) (p : String × TPModule) :
    (upAttrsMod mp W p).2.attrs =
      applyUpdateAttrs (fun v => deparallelRescaleAttr v W)
        mp.updateAttrs p.2.attrs := rfl

lemma sliceStepMod_col_fst (mp : TPMapping) (W r : Nat) (p : String × TPModule)
    (hcol : mp.isColumnParallel p.1 = true) :
    (sliceStepMod mp W r p).1 = p.1 := by
  rw [sliceStepMod_col mp W r p hcol]

lemma sliceStepMod_col_shares (mp : TPMapping) (W r : Nat) (p : String × TPModule)
    (hcol : mp.isColumnParallel p.1 = true) :
    (sliceStepMod mp W r p).2.sharesEmbeddingWeight =
      p.2.sharesEmbeddingWeight := by
  rw [sliceStepMod_col mp W r p hcol]
  show (sliceModule p.2 (mp.isReversedParam p.1) (mp.combinedQkvDegree p.1)
    true 0 W r).sharesEmbeddingWeight = _
  rw [sliceModule_shares]

lemma sliceStepMod_col_reversedFlag (mp : TPMapping) (W r : Nat)
    (p : String × TPModule) (hcol : mp.isColumnParallel p.1 = true) :
    (sliceStepMod mp W r p).2.reversedFlag = mp.isReversedParam p.1 := by
  rw [sliceStepMod_col mp W r p hcol]
  show (sliceModule p.2 (mp.isReversedParam p.1) (mp.combinedQkvDegree p.1)
    true 0 W r).reversedFlag = _
  rw [sliceModule_reversedFlag]

lemma sliceStepMod_col_fusionDegree (mp : TPMapping) (W r : Nat)
    (p : String × TPModule) (hcol : mp.isColumnParallel p.1 = true) :
    (sliceStepMod mp W r p).2.fusionDegree = mp.combinedQkvDegree p.1 := by
  rw [sliceStepMod_col mp W r p hcol]
  show (sliceModule p.2 (mp.isReversedParam p.1) (mp.combinedQkvDegree p.1)
    true 0 W r).fusionDegree = _
  rw [sliceModule_fusionDegree]

lemma sliceStepMod_col_attrs (mp : TPMapping) (W r : Nat) (p : String × TPModule)
    (hcol : mp.isColumnParallel p.1 = true) :
    (sliceStepMod mp W r p).2.attrs = p.2.attrs := by
  rw [sliceStepMod_col mp W r p hcol]
  show (sliceModule p.2 (mp.isReversedParam p.1) (mp.combinedQkvDegree p.1)
    true 0 W r).attrs = _
  rw [sliceModule_attrs]

lemma sliceStepMod_col_weight (mp : TPMapping) (W r : Nat) (p : String × TPModule)
    (hcol : mp.isColumnParallel p.1 = true) :
    (sliceStepMod mp W r p).2.weight =
      p.2.weight.map (fun w => sliceWeight w
        (if mp.isReversedParam p.1 then 1 else 0) (mp.combinedQkvDegree p.1) W r) := by
  rw [sliceStepMod_col mp W r p hcol]
  show (sliceModule p.2 (mp.isReversedParam p.1) (mp.combinedQkvDegree p.1)
    true 0 W r).weight = _
  rw [sliceModule_weight]

lemma sliceStepMod_col_bias (mp : TPMapping) (W r : Nat) (p : String × TPModule)
    (hcol : mp.isColumnParallel p.1 = true) :
    (sliceStepMod mp W r p).2.bias =
      p.2.bias.map (fun b => sliceBias b (mp.combinedQkvDegree p.1) W r) := by
  rw [sliceStepMod_col mp W r p hcol]
  show (sliceModule p.2 (mp.isReversedParam p.1) (mp.combinedQkvDegree p.1)
    true 0 W r).bias = _
  rw [sliceModule_bias]
  rfl

lemma sliceStepMod_row_fst (mp : TPMapping) (W r : Nat) (p : String × TPModule)
    (hcol : mp.isColumnParallel p.1 = false)
    (hrow : mp.isRowParallel p.1 = true) :
    (sliceStepMod mp W r p).1 = p.1 := by
  rw [sliceStepMod_row mp W r p hcol hrow]

lemma sliceStepMod_row_shares (mp : TPMapping) (W r : Nat) (p : String × TPModule)
    (hcol : mp.isColumnParallel p.1 = false)
    (hrow : mp.isRowParallel p.1 = true) :
    (sliceStepMod mp W r p).2.sharesEmbeddingWeight =
      p.2.sharesEmbeddingWeight := by
  rw [sliceStepMod_row mp W r p hcol hrow]
  show (sliceModule p.2 (mp.isReversedParam p.1) 1
    false 1 W r).sharesEmbeddingWeight = _
  rw [sliceModule_shares]

lemma sliceStepMod_row_reversedFlag (mp : TPMapping) (W r : Nat)
    (p : String × TPModule) (hcol : mp.isColumnParallel p.1 = false)
    (hrow : mp.isRowParallel p.1 = true) :
    (sliceStepMod mp W r p).2.reversedFlag = mp.isReversedParam p.1 := by
  rw [sliceStepMod_row mp W r p hcol hrow]
  show (sliceModule p.2 (mp.isReversedParam p.1) 1 false 1 W r).reversedFlag = _
  rw [sliceModule_reversedFlag]

lemma sliceStepMod_row_fusionDegree (mp : TPMapping) (W r : Nat)
    (p : String × TPModule) (hcol : mp.isColumnParallel p.1 = false)
    (hrow : mp.isRowParallel p.1 = true) :
    (sliceStepMod mp W r p).2.fusionDegree = 1 := by
  rw [sliceStepMod_row mp W r p hcol hrow]
  show (sliceModule p.2 (mp.isReversedParam p.1) 1 false 1 W r).fusionDegree = _
  rw [sliceModule_fusionDegree]

lemma sliceStepMod_row_attrs (mp : TPMapping) (W r : Nat) (p : String × TPModule)
    (hcol : mp.isColumnParallel p.1 = false)
    (hrow : mp.isRowParallel p.1 = true) :
    (sliceStepMod mp W r p).2.attrs = p.2.attrs := by
  rw [sliceStepMod_row mp W r p hcol hrow]
  show (sliceModule p.2 (mp.isReversedParam p.1) 1 false 1 W r).attrs = _
  rw [sliceModule_attrs]

lemma sliceStepMod_row_weight (mp : TPMapping) (W r : Nat) (p : String × TPModule)
    (hcol : mp.isColumnParallel p.1 = false)
    (hrow : mp.isRowParallel p.1 = true) :
    (sliceStepMod mp W r p).2.weight =
      p.2.weight.map (fun w => sliceWeight w
        (if mp.isReversedParam p.1 then 0 else 1) 1 W r) := by
  rw [sliceStepMod_row mp W r p hcol hrow]
  show (sliceModule p.2 (mp.isReversedParam p.1) 1 false 1 W r).weight = _
  rw [sliceModule_weight]

lemma sliceStepMod_row_bias (mp : TPMapping) (W r : Nat) (p : String × TPModule)
    (hcol : mp.isColumnParallel p.1 = false)
    (hrow : mp.isRowParallel p.1 = true) :
    (sliceStepMod mp W r p).2.bias = p.2.bias := by
  rw [sliceStepMod_row mp W r p hcol hrow]
  show (sliceModule p.2 (mp.isReversedParam p.1) 1 false 1 W r).bias = _
  rw [sliceModule_bias]
  rfl

/-- Round trip of one column-parallel module: name, weight, bias and
attribute bag are restored, under the divisibility and layout
conditions (non-reversed columns need fusion degree 1, see C2). -/
lemma roundTripMod_col (mp : TPMapping) (W : Nat) (rms : List Model)
    (idx : Nat) (p : String × TPModule)
    (hW : 0 < W)
    (hcol : mp.isColumnParallel p.1 = true)
    (hsh : p.2.sharesEmbeddingWeight = false)
    (hnd : mp.updateAttrs.Nodup)
    (hattr : ∀ q ∈ p.2.attrs, q.1 ∈ mp.updateAttrs → (W : Int) ∣ q.2)
    (hF : 0 < mp.combinedQkvDegree p.1)
    (hwrev : ∀ w2, p.2.weight = some w2 → mp.isReversedParam p.1 = true →
      0 < dim1Width w2 ∧ (mp.combinedQkvDegree p.1 * W) ∣ dim1Width w2 ∧
        ∀ row ∈ w2, row.length = dim1Width w2)
    (hwnorev : ∀ w2, p.2.weight = some w2 → mp.isReversedParam p.1 = false →
      mp.combinedQkvDegree p.1 = 1 ∧ W ∣ w2.length)
    (hbias : ∀ b, p.2.bias = some b →
      0 < b.length ∧ (mp.combinedQkvDegree p.1 * W) ∣ b.length)
    (hgather : gatherModules rms idx = (List.range W).map (fun r =>
      (sliceStepMod mp W r (tieMod mp (downAttrsMod mp W p))).2)) :
    (roundTripMod mp W rms idx p).1 = p.1 ∧
    (roundTripMod mp W rms idx p).2.weight = p.2.weight ∧
    (roundTripMod mp W rms idx p).2.bias = p.2.bias ∧
    (roundTripMod mp W rms idx p).2.attrs = p.2.attrs := by
  have hcold : mp.isColumnParallel (downAttrsMod mp W p).1 = true := hcol
  have htie : tieMod mp (downAttrsMod mp W p) = downAttrsMod mp W p := by
    apply tieMod_not
    show (p.2.sharesEmbeddingWeight && _ && _) = false
    rw [hsh]
    simp
  rw [htie] at hgather
  have hshX : ((upAttrsMod mp W (sliceStepMod mp W 0
        (downAttrsMod mp W p))).2.sharesEmbeddingWeight &&
      !((upAttrsMod mp W (sliceStepMod mp W 0
        (downAttrsMod mp W p))).2.cls == ModuleClass.embeddingCls) &&
      !((upAttrsMod mp W (sliceStepMod mp W 0
        (downAttrsMod mp W p))).2.cls == ModuleClass.vocabParallelEmbedding))
      = false := by
    rw [upAttrsMod_shares, sliceStepMod_col_shares mp W 0 _ hcold,
      downAttrsMod_shares, hsh]
    simp
  have hdt : depTieMod rms (upAttrsMod mp W (sliceStepMod mp W 0
      (downAttrsMod mp W p))) = upAttrsMod mp W (sliceStepMod mp W 0
      (downAttrsMod mp W p)) := depTieMod_not _ _ hshX
  have hrev4 : (upAttrsMod mp W (sliceStepMod mp W 0
      (downAttrsMod mp W p))).2.reversedFlag = mp.isReversedParam p.1 := by
    rw [upAttrsMod_reversedFlag, sliceStepMod_col_reversedFlag mp W 0 _ hcold]
    rfl
  have hfus4 : (upAttrsMod mp W (sliceStepMod mp W 0
      (downAttrsMod mp W p))).2.fusionDegree = mp.combinedQkvDegree p.1 := by
    rw [upAttrsMod_fusionDegree, sliceStepMod_col_fusionDegree mp W 0 _ hcold]
    rfl
  have hred : roundTripMod mp W rms idx p =
      (p.1, restoreOrigCls (mergeModule
        (upAttrsMod mp W (sliceStepMod mp W 0 (downAttrsMod mp W p))).2
        (gatherModules rms idx)
        (mp.isReversedParam p.1) (mp.combinedQkvDegree p.1) true 0)) := by
    unfold roundTripMod
    rw [htie, hdt, depOne_col mp rms idx
      (upAttrsMod mp W (sliceStepMod mp W 0 (downAttrsMod mp W p)))
      (by rw [upAttrsMod_fst, sliceStepMod_col_fst mp W 0 _ hcold,
        downAttrsMod_fst]; exact hcol),
      hrev4, hfus4, upAttrsMod_fst, sliceStepMod_col_fst mp W 0 _ hcold,
      downAttrsMod_fst]
  refine ⟨by rw [hred], ?_, ?_, ?_⟩
  · rw [hred]
    show (restoreOrigCls (mergeModule
      (upAttrsMod mp W (sliceStepMod mp W 0 (downAttrsMod mp W p))).2
      (gatherModules rms idx)
      (mp.isReversedParam p.1) (mp.combinedQkvDegree p.1) true 0)).weight =
      p.2.weight
    rw [restoreOrigCls_weight, mergeModule_weight, upAttrsMod_weight,
      sliceStepMod_col_weight mp W 0 _ hcold, downAttrsMod_weight,
      Option.map_map]
    cases hpw : p.2.weight with
    | none => rfl
    | some w2 =>
        simp only [Option.map_some', Function.comp_apply]
        rw [hgather, List.map_map]
        have hglist : (List.range W).map ((fun mr => mr.weight.getD ([] : Mat)) ∘
            (fun r => (sliceStepMod mp W r (downAttrsMod mp W p)).2)) =
            (List.range W).map (fun r => sliceWeight w2
              (if mp.isReversedParam p.1 then 1 else 0)
              (mp.combinedQkvDegree p.1) W r) := by
          apply List.map_congr_left
          intro r _
          simp only [Function.comp_apply]
          rw [sliceStepMod_col_weight mp W r _ hcold, downAttrsMod_weight, hpw]
          rfl
        rw [hglist]
        cases hrev : mp.isReversedParam p.1 with
        | false =>
            obtain ⟨hF1, hdvd0⟩ := hwnorev w2 hpw hrev
            rw [hF1]
            exact congrArg some (roundtrip_weight_dim0 w2 W hW hdvd0)
        | true =>
            obtain ⟨hw0, hdvd1, hrect⟩ := hwrev w2 hpw hrev
            exact congrArg some (roundtrip_weight_dim1 w2
              (mp.combinedQkvDegree p.1) W hF hW hw0 hdvd1 hrect)
  · rw [hred]
    show (restoreOrigCls (mergeModule
      (upAttrsMod mp W (sliceStepMod mp W 0 (downAttrsMod mp W p))).2
      (gatherModules rms idx)
      (mp.isReversedParam p.1) (mp.combinedQkvDegree p.1) true 0)).bias =
      p.2.bias
    rw [restoreOrigCls_bias, mergeModule_bias, if_pos (rfl : true = true),
      upAttrsMod_bias, sliceStepMod_col_bias mp W 0 _ hcold, downAttrsMod_bias,
      Option.map_map]
    cases hpb : p.2.bias with
    | none => rfl
    | some b =>
        simp only [Option.map_some', Function.comp_apply]
        rw [hgather, List.map_map]
        have hblist : (List.range W).map ((fun mr => mr.bias.getD ([] : List Int)) ∘
            (fun r => (sliceStepMod mp W r (downAttrsMod mp W p)).2)) =
            (List.range W).map (fun r =>
              sliceBias b (mp.combinedQkvDegree p.1) W r) := by
          apply List.map_congr_left
          intro r _
          simp only [Function.comp_apply]
          rw [sliceStepMod_col_bias mp W r _ hcold, downAttrsMod_bias, hpb]
          rfl
        rw [hblist]
        obtain ⟨hbl, hbdvd⟩ := hbias b hpb
        exact congrArg some (roundtrip_bias b (mp.combinedQkvDegree p.1) W
          hF hW hbl hbdvd)
  · rw [hred]
    show (restoreOrigCls (mergeModule
      (upAttrsMod mp W (sliceStepMod mp W 0 (downAttrsMod mp W p))).2
      (gatherModules rms idx)
      (mp.isReversedParam p.1) (mp.combinedQkvDegree p.1) true 0)).attrs =
      p.2.attrs
    rw [restoreOrigCls_attrs, mergeModule_attrs, upAttrsMod_attrs,
      sliceStepMod_col_attrs mp W 0 _ hcold, downAttrsMod_attrs]
    exact applyUpdateAttrs_roundtrip mp.updateAttrs p.2.attrs W hnd hattr

/-- Round trip of one row-parallel module. -/
lemma roundTripMod_row (mp : TPMapping) (W : Nat) (rms : List Model)
    (idx : Nat) (p : String × TPModule)
    (hW : 0 < W)
    (hcol : mp.isColumnParallel p.1 = false)
    (hrow : mp.isRowParallel p.1 = true)
    (hsh : p.2.sharesEmbeddingWeight = false)
    (hnd : mp.updateAttrs.Nodup)
    (hattr : ∀ q ∈ p.2.attrs, q.1 ∈ mp.updateAttrs → (W : Int) ∣ q.2)
    (hwrev : ∀ w2, p.2.weight = some w2 → mp.isReversedParam p.1 = true →
      W ∣ w2.length)
    (hwnorev : ∀ w2, p.2.weight = some w2 → mp.isReversedParam p.1 = false →
      0 < dim1Width w2 ∧ W ∣ dim1Width w2 ∧
        ∀ row ∈ w2, row.length = dim1Width w2)
    (hgather : gatherModules rms idx = (List.range W).map (fun r =>
      (sliceStepMod mp W r (tieMod mp (downAttrsMod mp W p))).2)) :
    (roundTripMod mp W rms idx p).1 = p.1 ∧
    (roundTripMod mp W rms idx p).2.weight = p.2.weight ∧
    (roundTripMod mp W rms idx p).2.bias = p.2.bias ∧
    (roundTripMod mp W rms idx p).2.attrs = p.2.attrs := by
  have hcold : mp.isColumnParallel (downAttrsMod mp W p).1 = false := hcol
  have hrowd : mp.isRowParallel (downAttrsMod mp W p).1 = true := hrow
  have htie : tieMod mp (downAttrsMod mp W p) = downAttrsMod mp W p := by
    apply tieMod_not
    show (p.2.sharesEmbeddingWeight && _ && _) = false
    rw [hsh]
    simp
  rw [htie] at hgather
  have hshX : ((upAttrsMod mp W (sliceStepMod mp W 0
        (downAttrsMod mp W p))).2.sharesEmbeddingWeight &&
      !((upAttrsMod mp W (sliceStepMod mp W 0
        (downAttrsMod mp W p))).2.cls == ModuleClass.embeddingCls) &&
      !((upAttrsMod mp W (sliceStepMod mp W 0
        (downAttrsMod mp W p))).2.cls == ModuleClass.vocabParallelEmbedding))
      = false := by
    rw [upAttrsMod_shares, sliceStepMod_row_shares mp W 0 _ hcold hrowd,
      downAttrsMod_shares, hsh]
    simp
  have hdt : depTieMod rms (upAttrsMod mp W (sliceStepMod mp W 0
      (downAttrsMod mp W p))) = upAttrsMod mp W (sliceStepMod mp W 0
      (downAttrsMod mp W p)) := depTieMod_not _ _ hshX
  have hrev4 : (upAttrsMod mp W (sliceStepMod mp W 0
      (downAttrsMod mp W p))).2.reversedFlag = mp.isReversedParam p.1 := by
    rw [upAttrsMod_reversedFlag, sliceStepMod_row_reversedFlag mp W 0 _ hcold hrowd]
    rfl
  have hfus4 : (upAttrsMod mp W (sliceStepMod mp W 0
      (downAttrsMod mp W p))).2.fusionDegree = 1 := by
    rw [upAttrsMod_fusionDegree, sliceStepMod_row_fusionDegree mp W 0 _ hcold hrowd]
  have hred : roundTripMod mp W rms idx p =
      (p.1, restoreOrigCls (mergeModule
        (upAttrsMod mp W (sliceStepMod mp W 0 (downAttrsMod mp W p))).2
        (gatherModules rms idx)
        (mp.isReversedParam p.1) 1 false 1)) := by
    unfold roundTripMod
    rw [htie, hdt, depOne_row mp rms idx
      (upAttrsMod mp W (sliceStepMod mp W 0 (downAttrsMod mp W p)))
      (by rw [upAttrsMod_fst, sliceStepMod_row_fst mp W 0 _ hcold hrowd,
        downAttrsMod_fst]; exact hcol)
      (by rw [upAttrsMod_fst, sliceStepMod_row_fst mp W 0 _ hcold hrowd,
        downAttrsMod_fst]; exact hrow),
      hrev4, hfus4, upAttrsMod_fst, sliceStepMod_row_fst mp W 0 _ hcold hrowd,
      downAttrsMod_fst]
  refine ⟨by rw [hred], ?_, ?_, ?_⟩
  · rw [hred]
    show (restoreOrigCls (mergeModule
      (upAttrsMod mp W (sliceStepMod mp W 0 (downAttrsMod mp W p))).2
      (gatherModules rms idx) (mp.isReversedParam p.1) 1 false 1)).weight =
      p.2.weight
    rw [restoreOrigCls_weight, mergeModule_weight, upAttrsMod_weight,
      sliceStepMod_row_weight mp W 0 _ hcold hrowd, downAttrsMod_weight,
      Option.map_map]
    cases hpw : p.2.weight with
    | none => rfl
    | some w2 =>
        simp only [Option.map_some', Function.comp_apply]
        rw [hgather, List.map_map]
        have hglist : (List.range W).map ((fun mr => mr.weight.getD ([] : Mat)) ∘
            (fun r => (sliceStepMod mp W r (downAttrsMod mp W p)).2)) =
            (List.range W).map (fun r => sliceWeight w2
              (if mp.isReversedParam p.1 then 0 else 1) 1 W r) := by
          apply List.map_congr_left
          intro r _
          simp only [Function.comp_apply]
          rw [sliceStepMod_row_weight mp W r _ hcold hrowd,
            downAttrsMod_weight, hpw]
          rfl
        rw [hglist]
        cases hrev : mp.isReversedParam p.1 with
        | false =>
            obtain ⟨hw0, hdvd1, hrect⟩ := hwnorev w2 hpw hrev
            exact congrArg some (roundtrip_weight_dim1 w2 1 W (by omega) hW
              hw0 (by rw [Nat.one_mul]; exact hdvd1) hrect)
        | true =>
            exact congrArg some (roundtrip_weight_dim0 w2 W hW
              (hwrev w2 hpw hrev))
  · rw [hred]
    show (restoreOrigCls (mergeModule
      (upAttrsMod mp W (sliceStepMod mp W 0 (downAttrsMod mp W p))).2
      (gatherModules rms idx) (mp.isReversedParam p.1) 1 false 1)).bias =
      p.2.bias
    rw [restoreOrigCls_bias, mergeModule_bias,
      if_neg (show ¬(false = true) by simp), upAttrsMod_bias,
      sliceStepMod_row_bias mp W 0 _ hcold hrowd, downAttrsMod_bias]
  · rw [hred]
    show (restoreOrigCls (mergeModule
      (upAttrsMod mp W (sliceStepMod mp W 0 (downAttrsMod mp W p))).2
      (gatherModules rms idx) (mp.isReversedParam p.1) 1 false 1)).attrs =
      p.2.attrs
    rw [restoreOrigCls_attrs, mergeModule_attrs, upAttrsMod_attrs,
      sliceStepMod_row_attrs mp W 0 _ hcold hrowd, downAttrsMod_attrs]
    exact applyUpdateAttrs_roundtrip mp.updateAttrs p.2.attrs W hnd hattr

lemma colcls_ne_emb :
    (ModuleClass.columnParallelLinear == ModuleClass.embeddingCls) = false := by
  decide

lemma colcls_ne_vocab :
    (ModuleClass.columnParallelLinear ==
      ModuleClass.vocabParallelEmbedding) = false := by
  decide

/-- Round trip of a tied output head (shares the embedding weight, not
named column/row in the mapping): weight and bias pass through, attrs
are restored. -/
lemma roundTripMod_tied (mp : TPMapping) (W : Nat) (rms : List Model)
    (idx : Nat) (p : String × TPModule)
    (hcol : mp.isColumnParallel p.1 = false)
    (hrow : mp.isRowParallel p.1 = false)
    (htc : (p.2.sharesEmbeddingWeight &&
      !(p.2.cls == ModuleClass.embeddingCls) &&
      !(p.2.cls == ModuleClass.vocabParallelEmbedding)) = true)
    (hnd : mp.updateAttrs.Nodup)
    (hattr : ∀ q ∈ p.2.attrs, q.1 ∈ mp.updateAttrs → (W : Int) ∣ q.2) :
    (roundTripMod mp W rms idx p).1 = p.1 ∧
    (roundTripMod mp W rms idx p).2.weight = p.2.weight ∧
    (roundTripMod mp W rms idx p).2.bias = p.2.bias ∧
    (roundTripMod mp W rms idx p).2.attrs = p.2.attrs := by
  have h := htc
  simp only [Bool.and_eq_true] at h
  obtain ⟨⟨hshares, hb1⟩, hb2⟩ := h
  have hne1 : ¬(p.2.cls = ModuleClass.embeddingCls) := by
    intro hcontra
    rw [hcontra] at hb1
    simp at hb1
  have hne2 : ¬(p.2.cls = ModuleClass.vocabParallelEmbedding) := by
    intro hcontra
    rw [hcontra] at hb2
    simp at hb2
  refine ⟨?_, ?_, ?_, ?_⟩
  · simp [roundTripMod, tieMod, sliceStepMod, depTieMod, deparallelizeOneModule,
      downAttrsMod, upAttrsMod, restoreOrigCls, hcol, hrow, hshares, hne1, hne2]
  · simp [roundTripMod, tieMod, sliceStepMod, depTieMod, deparallelizeOneModule,
      downAttrsMod, upAttrsMod, restoreOrigCls, hcol, hrow, hshares, hne1, hne2]
  · simp [roundTripMod, tieMod, sliceStepMod, depTieMod, deparallelizeOneModule,
      downAttrsMod, upAttrsMod, restoreOrigCls, hcol, hrow, hshares, hne1, hne2]
  · simp [roundTripMod, tieMod, sliceStepMod, depTieMod, deparallelizeOneModule,
      downAttrsMod, upAttrsMod, restoreOrigCls, hcol, hrow, hshares, hne1, hne2]
    exact applyUpdateAttrs_roundtrip mp.updateAttrs p.2.attrs W hnd hattr

/-- Round trip of a module the mapping and the tied-head loop do not
touch: only the attribute rescale applies, and it is inverted. -/
lemma roundTripMod_plain (mp : TPMapping) (W : Nat) (rms : List Model)
    (idx : Nat) (p : String × TPModule)
    (hcol : mp.isColumnParallel p.1 = false)
    (hrow : mp.isRowParallel p.1 = false)
    (htc : (p.2.sharesEmbeddingWeight &&
      !(p.2.cls == ModuleClass.embeddingCls) &&
      !(p.2.cls == ModuleClass.vocabParallelEmbedding)) = false)
    (hnd : mp.updateAttrs.Nodup)
    (hattr : ∀ q ∈ p.2.attrs, q.1 ∈ mp.updateAttrs → (W : Int) ∣ q.2) :
    (roundTripMod mp W rms idx p).1 = p.1 ∧
    (roundTripMod mp W rms idx p).2.weight = p.2.weight ∧
    (roundTripMod mp W rms idx p).2.bias = p.2.bias ∧
    (roundTripMod mp W rms idx p).2.attrs = p.2.attrs := by
  refine ⟨?_, ?_, ?_, ?_⟩
  · simp [roundTripMod, tieMod, sliceStepMod, depTieMod, deparallelizeOneModule,
      downAttrsMod, upAttrsMod, hcol, hrow, htc]
  · simp [roundTripMod, tieMod, sliceStepMod, depTieMod, deparallelizeOneModule,
      downAttrsMod, upAttrsMod, hcol, hrow, htc]
  · simp [roundTripMod, tieMod, sliceStepMod, depTieMod, deparallelizeOneModule,
      downAttrsMod, upAttrsMod, hcol, hrow, htc]
  · simp [roundTripMod, tieMod, sliceStepMod, depTieMod, deparallelizeOneModule,
      downAttrsMod, upAttrsMod, hcol, hrow, htc]
    exact applyUpdateAttrs_roundtrip mp.updateAttrs p.2.attrs W hnd hattr

lemma parallelizeModel_embedding (mp : TPMapping) (W r : Nat) (m : Model)
    (hE : m.hasInputEmbeddings = true) :
    ((parallelizeModel mp W r m).1).embedding =
      { m.embedding with
        attrs := (applyUpdateAttrs (fun v => parallelRescaleAttr v W)
          mp.updateAttrs m.embedding.attrs)
        weight := m.embedding.weight.map (fun w => shardWeight w W r)
        tpRank := some r
        origCls := some m.embedding.cls
        cls := ModuleClass.vocabParallelEmbedding } := by
  rw [parallelizeModel_run mp W r m hE]
  rfl

lemma roundTripModel_embedding (mp : TPMapping) (W : Nat) (m : Model)
    (hW : 0 < W) :
    (roundTripModel mp W m).embedding =
      restoreOrigCls
        { ((parallelizeModel mp W 0 m).1).embedding with
          attrs := (applyUpdateAttrs (fun v => deparallelRescaleAttr v W)
            mp.updateAttrs ((parallelizeModel mp W 0 m).1).embedding.attrs)
          weight := some (gatheredEmbeddingWeight
            ((List.range W).map (fun r => (parallelizeModel mp W r m).1)))
          numEmbeddings := (gatheredEmbeddingWeight
            ((List.range W).map (fun r => (parallelizeModel mp W r m).1))).length } := by
  unfold roundTripModel deparallelizeModel
  rw [headD_range_map W _ default hW]
  rfl

lemma roundTrip_embedding_weight (mp : TPMapping) (W : Nat) (m : Model)
    (hW : 0 < W) (hE : m.hasInputEmbeddings = true)
    (tbl : Mat) (htbl : m.embedding.weight = some tbl)
    (hdvd : W ∣ tbl.length) :
    (roundTripModel mp W m).embedding.weight = m.embedding.weight := by
  rw [roundTripModel_embedding mp W m hW, restoreOrigCls_weight]
  show some (gatheredEmbeddingWeight
    ((List.range W).map (fun r => (parallelizeModel mp W r m).1))) =
    m.embedding.weight
  have hg : gatheredEmbeddingWeight
      ((List.range W).map (fun r => (parallelizeModel mp W r m).1)) = tbl := by
    unfold gatheredEmbeddingWeight
    rw [List.map_map]
    have hlist : (List.range W).map ((fun mr => mr.embedding.weight.getD ([] : Mat)) ∘
        (fun r => (parallelizeModel mp W r m).1)) =
        (List.range W).map (fun r => (torchChunk tbl W).getD r []) := by
      apply List.map_congr_left
      intro r _
      simp only [Function.comp_apply]
      rw [parallelizeModel_embedding mp W r m hE]
      show (m.embedding.weight.map (fun w => shardWeight w W r)).getD [] = _
      rw [htbl]
      rfl
    rw [hlist]
    exact roundtrip_gather tbl W hW hdvd
  rw [hg, htbl]

lemma roundTrip_embedding_bias (mp : TPMapping) (W : Nat) (m : Model)
    (hW : 0 < W) (hE : m.hasInputEmbeddings = true) :
    (roundTripModel mp W m).embedding.bias = m.embedding.bias := by
  rw [roundTripModel_embedding mp W m hW, restoreOrigCls_bias]
  show ((parallelizeModel mp W 0 m).1).embedding.bias = _
  rw [parallelizeModel_embedding mp W 0 m hE]

lemma roundTrip_embedding_attrs (mp : TPMapping) (W : Nat) (m : Model)
    (hW : 0 < W) (hE : m.hasInputEmbeddings = true)
    (hnd : mp.updateAttrs.Nodup)
    (hattr : ∀ q ∈ m.embedding.attrs, q.1 ∈ mp.updateAttrs → (W : Int) ∣ q.2) :
    (roundTripModel mp W m).embedding.attrs = m.embedding.attrs := by
  rw [roundTripModel_embedding mp W m hW, restoreOrigCls_attrs]
  show applyUpdateAttrs (fun v => deparallelRescaleAttr v W) mp.updateAttrs
    ((parallelizeModel mp W 0 m).1).embedding.attrs = _
  rw [parallelizeModel_embedding mp W 0 m hE]
  show applyUpdateAttrs (fun v => deparallelRescaleAttr v W) mp.updateAttrs
    (applyUpdateAttrs (fun v => parallelRescaleAttr v W) mp.updateAttrs
      m.embedding.attrs) = _
  exact applyUpdateAttrs_roundtrip mp.updateAttrs m.embedding.attrs W hnd hattr

lemma roundTripModel_modules_length (mp : TPMapping) (W : Nat) (m : Model)
    (hW : 0 < W) (hE : m.hasInputEmbeddings = true) :
    (roundTripModel mp W m).modules.length = m.modules.length := by
  rw [roundTripModel_modules mp W m hW hE]
  simp

/-- `W` divides every attribute value named by the rescale list. -/
def attrsDivisible (W : Nat) (names : List String) (attrs : Attrs) : Prop :=
  ∀ q ∈ attrs, q.1 ∈ names → (W : Int) ∣ q.2

/-- Side conditions under which the round trip restores a
column-parallel module (non-reversed columns need fusion degree 1,
cf. claim C2: fused dim-0 slices are concatenated along the wrong
dimension). -/
def colParallelOK (md : TPModule) (rev : Bool) (F W : Nat) : Prop :=
  md.sharesEmbeddingWeight = false ∧ 0 < F ∧
  (md.weight.isSome = true →
    (rev = true → 0 < dim1Width (md.weight.getD []) ∧
      (F * W) ∣ dim1Width (md.weight.getD []) ∧
      ∀ row ∈ md.weight.getD [], row.length = dim1Width (md.weight.getD [])) ∧
    (rev = false → F = 1 ∧ W ∣ (md.weight.getD []).length)) ∧
  (md.bias.isSome = true →
    0 < (md.bias.getD []).length ∧ (F * W) ∣ (md.bias.getD []).length)

/-- Side conditions for a row-parallel module. -/
def rowParallelOK (md : TPModule) (rev : Bool) (W : Nat) : Prop :=
  md.sharesEmbeddingWeight = false ∧
  (md.weight.isSome = true →
    (rev = true → W ∣ (md.weight.getD []).length) ∧
    (rev = false → 0 < dim1Width (md.weight.getD []) ∧
      W ∣ dim1Width (md.weight.getD []) ∧
      ∀ row ∈ md.weight.getD [], row.length = dim1Width (md.weight.getD [])))

/-- Per-module conditions for an exact round trip. -/
def moduleRoundTripOK (mp : TPMapping) (W : Nat) (nm : String)
    (md : TPModule) : Prop :=
  (mp.isColumnParallel nm = true →
    colParallelOK md (mp.isReversedParam nm) (mp.combinedQkvDegree nm) W) ∧
  (mp.isColumnParallel nm = false → mp.isRowParallel nm = true →
    rowParallelOK md (mp.isReversedParam nm) W)

/-- A model whose single module carries the rescalable attribute
`n_head = 3`, not divisible by world size 2. -/
def c1Model : Model :=
  { hasInputEmbeddings := true
    embedding :=
      { weight := some [[5], [6]]
        bias := none
        attrs := [] }
    modules := [("h", { weight := none, bias := none, attrs := [("n_head", 3)] })] }

/-- A mapping table rescaling `n_head` and sharding nothing else. -/
def c1Mapping : TPMapping :=
  { isColumnParallel := fun _ => false
    isRowParallel := fun _ => false
    isReversedParam := fun _ => false
    combinedQkvDegree := fun _ => 1
    updateAttrs := ["n_head"] }

/-- Claim C1, counterexample: for world size 2 and a model whose
rescaled config integer is 3 (not divisible by 2), parallelize followed
by deparallelize yields `n_head = (3 // 2) * 2 = 2 ≠ 3`: the round trip
is not bit-identical for every model, mapping table and world size in
`{1, 2, 4}`. -/
theorem claim1_counterexample :
    getAttr ((roundTripModel c1Mapping 2 c1Model).modules.getD 0
      ("", default)).2.attrs "n_head" = some 2 ∧
    getAttr (c1Model.modules.getD 0 ("", default)).2.attrs "n_head" = some 3 := by
  decide

instance (W : Nat) (names : List String) (attrs : Attrs) :
    Decidable (attrsDivisible W names attrs) := by
  unfold attrsDivisible
  infer_instance

instance (md : TPModule) (rev : Bool) (F W : Nat) :
    Decidable (colParallelOK md rev F W) := by
  unfold colParallelOK
  infer_instance

instance (md : TPModule) (rev : Bool) (W : Nat) :
    Decidable (rowParallelOK md rev W) := by
  unfold rowParallelOK
  infer_instance

instance (mp : TPMapping) (W : Nat) (nm : String) (md : TPModule) :
    Decidable (moduleRoundTripOK mp W nm md) := by
  unfold moduleRoundTripOK
  infer_instance

/-- Claim C1 (amended): for every world size `W >= 1`, mapping table and
model satisfying the round-trip side conditions (model exposes
`get_input_embeddings`, duplicate-free rescale list whose named config
integers are divisible by `W`, `W` divides the vocabulary size, and
per-module divisibility/layout conditions — in particular fusion
degree 1 for non-reversed column targets, cf. C2), deparallelize after
parallelize restores the embedding weight, bias and attrs, the module
count, and every module's name, weight tensor, bias tensor and
attribute bag bit-identically. -/
theorem claim1_roundtrip (mp : TPMapping) (W : Nat) (m : Model)
    (hW : 0 < W)
    (hE : m.hasInputEmbeddings = true)
    (hnd : mp.updateAttrs.Nodup)
    (hembW : m.embedding.weight.isSome = true)
    (hembdvd : W ∣ (m.embedding.weight.getD []).length)
    (hembAttrs : attrsDivisible W mp.updateAttrs m.embedding.attrs)
    (hmods : ∀ p ∈ m.modules, moduleRoundTripOK mp W p.1 p.2 ∧
      attrsDivisible W mp.updateAttrs p.2.attrs) :
    (roundTripModel mp W m).embedding.weight = m.embedding.weight ∧
    (roundTripModel mp W m).embedding.bias = m.embedding.bias ∧
    (roundTripModel mp W m).embedding.attrs = m.embedding.attrs ∧
    (roundTripModel mp W m).modules.length = m.modules.length ∧
    ∀ idx, idx < m.modules.length →
      ((roundTripModel mp W m).modules.getD idx ("", default)).1 =
        (m.modules.getD idx ("", default)).1 ∧
      ((roundTripModel mp W m).modules.getD idx ("", default)).2.weight =
        (m.modules.getD idx ("", default)).2.weight ∧
      ((roundTripModel mp W m).modules.getD idx ("", default)).2.bias =
        (m.modules.getD idx ("", default)).2.bias ∧
      ((roundTripModel mp W m).modules.getD idx ("", default)).2.attrs =
        (m.modules.getD idx ("", default)).2.attrs := by
  obtain ⟨tbl, htbl⟩ := Option.isSome_iff_exists.mp hembW
  have htdvd : W ∣ tbl.length := by
    rw [htbl] at hembdvd
    exact hembdvd
  refine ⟨roundTrip_embedding_weight mp W m hW hE tbl htbl htdvd,
    roundTrip_embedding_bias mp W m hW hE,
    roundTrip_embedding_attrs mp W m hW hE hnd hembAttrs,
    roundTripModel_modules_length mp W m hW hE, ?_⟩
  intro idx hidx
  have hgetD : (roundTripModel mp W m).modules.getD idx ("", default) =
      roundTripMod mp W
        ((List.range W).map (fun r => (parallelizeModel mp W r m).1)) idx
        (m.modules.getD idx ("", default)) := by
    rw [roundTripModel_modules mp W m hW hE]
    exact getD_range_map m.modules.length _ idx ("", default) hidx
  rw [hgetD]
  have hp : m.modules.getD idx ("", default) ∈ m.modules := by
    rw [List.getD_eq_getElem _ _ hidx]
    exact List.getElem_mem _
  obtain ⟨⟨hcolOK, hrowOK⟩, hattrP⟩ := hmods _ hp
  have hgather := gatherModules_roundTrip mp W m idx hE hidx
  by_cases hcol : mp.isColumnParallel (m.modules.getD idx ("", default)).1 = true
  · obtain ⟨hsh, hF, hwOK, hbOK⟩ := hcolOK hcol
    exact roundTripMod_col mp W _ idx _ hW hcol hsh hnd hattrP hF
      (fun w2 hw2 hrev => by
        have hsome : (m.modules.getD idx ("", default)).2.weight.isSome = true := by
          rw [hw2]; rfl
        have h1 := (hwOK hsome).1 hrev
        rw [hw2] at h1
        exact h1)
      (fun w2 hw2 hrev => by
        have hsome : (m.modules.getD idx ("", default)).2.weight.isSome = true := by
          rw [hw2]; rfl
        have h1 := (hwOK hsome).2 hrev
        rw [hw2] at h1
        exact h1)
      (fun b hb => by
        have hsome : (m.modules.getD idx ("", default)).2.bias.isSome = true := by
          rw [hb]; rfl
        have h1 := hbOK hsome
        rw [hb] at h1
        exact h1)
      hgather
  · have hcolF : mp.isColumnParallel (m.modules.getD idx ("", default)).1 =
        false := by simpa using hcol
    by_cases hrow : mp.isRowParallel (m.modules.getD idx ("", default)).1 = true
    · obtain ⟨hsh, hwOK⟩ := hrowOK hcolF hrow
      exact roundTripMod_row mp W _ idx _ hW hcolF hrow hsh hnd hattrP
        (fun w2 hw2 hrev => by
          have hsome : (m.modules.getD idx ("", default)).2.weight.isSome
              = true := by
            rw [hw2]; rfl
          have h1 := (hwOK hsome).1 hrev
          rw [hw2] at h1
          exact h1)
        (fun w2 hw2 hrev => by
          have hsome : (m.modules.getD idx ("", default)).2.weight.isSome
              = true := by
            rw [hw2]; rfl
          have h1 := (hwOK hsome).2 hrev
          rw [hw2] at h1
          exact h1)
        hgather
    · have hrowF : mp.isRowParallel (m.modules.getD idx ("", default)).1 =
          false := by simpa using hrow
      by_cases htc : ((m.modules.getD idx ("", default)).2.sharesEmbeddingWeight &&
          !((m.modules.getD idx ("", default)).2.cls ==
            ModuleClass.embeddingCls) &&
          !((m.modules.getD idx ("", default)).2.cls ==
            ModuleClass.vocabParallelEmbedding)) = true
      · exact roundTripMod_tied mp W _ idx _ hcolF hrowF htc hnd hattrP
      · have htcF : ((m.modules.getD idx ("", default)).2.sharesEmbeddingWeight &&
            !((m.modules.getD idx ("", default)).2.cls ==
              ModuleClass.embeddingCls) &&
            !((m.modules.getD idx ("", default)).2.cls ==
              ModuleClass.vocabParallelEmbedding)) = false := by
          simpa using htc
        exact roundTripMod_plain mp W _ idx _ hcolF hrowF htcF hnd hattrP

/-- Mapping table for the claim C1 witness: `attn` is a reversed fused
column target, `proj` a non-reversed row target; `n_head` is rescaled. -/
def c1wMapping : TPMapping :=
  { isColumnParallel := fun s => s == "attn"
    isRowParallel := fun s => s == "proj"
    isReversedParam := fun s => s == "attn"
    combinedQkvDegree := fun s => if s == "attn" then 2 else 1
    updateAttrs := ["n_head"] }

/-- Model for the claim C1 witness: a `[2, 1]` embedding, a reversed
`[2, 4]` fused column module with a `[4]` bias, a `[2, 2]` row module,
a tied head sharing the embedding weight, and `n_head = 2`. -/
def c1wModel : Model :=
  { hasInputEmbeddings := true
    embedding :=
      { weight := some [[1], [2]]
        bias := none
        attrs := [("n_head", 2)] }
    modules :=
      [("attn",
        { weight := some [[1, 2, 3, 4], [5, 6, 7, 8]]
          bias := some [1, 2, 3, 4]
          attrs := [("n_head", 2)] }),
       ("proj",
        { weight := some [[1, 2], [3, 4]]
          bias := some [7, 8]
          attrs := [] }),
       ("head",
        { weight := some [[9], [10]]
          bias := none
          attrs := []
          sharesEmbeddingWeight := true })] }

/-- Witness for claim C1's amended theorem at world size 2. -/
theorem claim1_witness :
    (roundTripModel c1wMapping 2 c1wModel).embedding.weight =
      c1wModel.embedding.weight ∧
    (roundTripModel c1wMapping 2 c1wModel).embedding.bias =
      c1wModel.embedding.bias ∧
    (roundTripModel c1wMapping 2 c1wModel).embedding.attrs =
      c1wModel.embedding.attrs ∧
    (roundTripModel c1wMapping 2 c1wModel).modules.length =
      c1wModel.modules.length ∧
    ∀ idx, idx < c1wModel.modules.length →
      ((roundTripModel c1wMapping 2 c1wModel).modules.getD idx
        ("", default)).1 = (c1wModel.modules.getD idx ("", default)).1 ∧
      ((roundTripModel c1wMapping 2 c1wModel).modules.getD idx
        ("", default)).2.weight =
        (c1wModel.modules.getD idx ("", default)).2.weight ∧
      ((roundTripModel c1wMapping 2 c1wModel).modules.getD idx
        ("", default)).2.bias =
        (c1wModel.modules.getD idx ("", default)).2.bias ∧
      ((roundTripModel c1wMapping 2 c1wModel).modules.getD idx
        ("", default)).2.attrs =
        (c1wModel.modules.getD idx ("", default)).2.attrs :=
  claim1_roundtrip c1wMapping 2 c1wModel (by decide) (by decide) (by decide)
    (by decide) (by decide) (by decide) (by decide)

/-- Witness for claim C7 at `names = ["n_head"]`, `h = 6`, `W = 2`. -/
theorem claim7_witness :
    getAttr (applyUpdateAttrs (fun v => parallelRescaleAttr v 2) ["n_head"]
        [("n_head", 6)]) "n_head" = some (Int.fdiv 6 2) ∧
    getAttr (applyUpdateAttrs (fun v => deparallelRescaleAttr v 2) ["n_head"]
        [("n_head", 6)]) "n_head" = some (6 * 2) ∧
    (deparallelRescaleAttr (parallelRescaleAttr 6 2) 2 = 6 ↔ (2 : Int) ∣ 6) :=
  claim7_rescale ["n_head"] [("n_head", 6)] "n_head" 6 2 (by decide)
    (by decide) (by decide)

end Oslo
